import Mathlib

/-!
Verification of the CHIMERA dynamic schema-discovery and statistical
profiling engine (src/backend/analyzer.py) against its natural-language
specification.

The embedding models parsed NDJSON records as a `JValue` tree (JSON numbers
appear as integers; none of the verified properties distinguishes integral
from fractional numbers).  The external field-metadata lookup
(`plugin_loader.get_field_info` / `betfair_dictionary.get_field_info`), the
category lookup, and the plugin-driven ML-suggestion generation of phase 9
are external collaborators per the specification and are passed in as
function parameters.  Python dictionaries are modelled as insertion-ordered
association lists (`json.loads` produces dicts, which preserve insertion
order); Python sets of context tags are modelled as insertion-ordered
duplicate-free lists.
-/

/-- One parsed JSON value (a record or any of its sub-values). -/
inductive JValue where
  | null
  | bool (b : Bool)
  | int (n : Int)
  | str (s : String)
  | arr (items : List JValue)
  | obj (fields : List (String × JValue))

/-- Python `type(value).__name__` for the modelled value universe. -/
def pyTypeName : JValue → String
  | .null => "NoneType"
  | .bool _ => "bool"
  | .int _ => "int"
  | .str _ => "str"
  | .arr _ => "list"
  | .obj _ => "dict"

/-- Value-type classification of analyzer.py lines 178-187: scalars map to
their Python type name; a non-empty list is classified by its first element;
an empty list keeps the generic name "list". -/
def classifyType (v : JValue) : String :=
  match v with
  | .arr (first :: _) =>
    match first with
    | .obj _ => "array[object]"
    | .arr _ => "array[array]"
    | x => "array[" ++ pyTypeName x ++ "]"
  | v => pyTypeName v

/-- Python truthiness of a JSON value (`if pt:` and similar tests). -/
def jTruthy : JValue → Bool
  | .null => false
  | .bool b => b
  | .int n => n != 0
  | .str s => s != ""
  | .arr items => !items.isEmpty
  | .obj fields => !fields.isEmpty

/-- `dict.get(key)` on a top-level JSON object: first binding wins, matching
Python dict semantics where keys are unique (json.loads keeps the last
duplicate, producing a duplicate-free dict).  Phases 5 and 6 of
analyze_records call `.get` on records, which requires them to be objects;
the embedding is used on batches of top-level objects as produced by the
NDJSON loader. -/
def jGet (v : JValue) (key : String) : Option JValue :=
  match v with
  | .obj fields =>
    match fields.find? (fun kv => kv.1 = key) with
    | some kv => some kv.2
    | none => none
  | _ => none

/-- Result of the field-metadata lookup (external collaborator):
`lookup(key, context) -> {name, description, category, ml_relevance}`. -/
structure FieldInfo where
  name : String
  description : String
  category : String
  ml_relevance : String
  deriving DecidableEq

/-- One registry entry of the field registry built by
discover_fields_recursive (analyzer.py lines 190-214).  Python's `contexts`
set is modelled as an insertion-ordered duplicate-free list. -/
structure FieldEntry where
  path : String
  key : String
  name : String
  description : String
  category : String
  ml_relevance : String
  ftype : String
  count : Nat
  sample_values : List JValue
  contexts : List String

/-- Context propagation of analyzer.py lines 157-170: six structurally
significant container names set the context; any other key propagates the
parent's context unchanged. -/
def childContextFor (key : String) (context : Option String) : Option String :=
  if key = "mc" then some "mc"
  else if key = "rc" then some "rc"
  else if key = "marketDefinition" then some "marketDefinition"
  else if key = "runners" then some "runners"
  else if key = "oc" then some "oc"
  else if key = "uo" then some "uo"
  else context

/-- Sample-collection guard of analyzer.py line 210:
`not isinstance(value, (dict, list)) or (isinstance(value, list) and len(value) < 10)`. -/
def sampleAllowed (v : JValue) : Bool :=
  match v with
  | .obj _ => false
  | .arr items => items.length < 10
  | _ => true

/-- Sample truncation of analyzer.py lines 211-213: a non-empty list sample
is cut to its first 3 elements; everything else is stored raw. -/
def truncateSample (v : JValue) : JValue :=
  match v with
  | .arr (x :: xs) => .arr ((x :: xs).take 3)
  | v => v

/-- A freshly created registry entry (analyzer.py lines 191-202): metadata
comes from the lookup result of the first observation, the type from the
first observation's classification; count 0, no samples, no contexts (the
count is bumped and the first sample/context added by the same observation
via bumpEntry). -/
def freshEntry (fieldPath key : String) (info : FieldInfo) (vt : String) : FieldEntry :=
  { path := fieldPath
    key := key
    name := info.name
    description := info.description
    category := info.category
    ml_relevance := info.ml_relevance
    ftype := vt
    count := 0
    sample_values := []
    contexts := [] }

/-- The per-observation mutation of an existing entry (analyzer.py lines
204-214): increment count, add the parent context to the context set when it
is not None (context tags are non-empty strings, so Python truthiness of the
tag coincides with its presence), and append a bounded sample. -/
def bumpEntry (ctx : Option String) (v : JValue) (e : FieldEntry) : FieldEntry :=
  let e := { e with count := e.count + 1 }
  let e :=
    match ctx with
    | some c => if c ∈ e.contexts then e else { e with contexts := e.contexts ++ [c] }
    | none => e
  if e.sample_values.length < 5 && sampleAllowed v then
    { e with sample_values := e.sample_values ++ [truncateSample v] }
  else e

/-- Registering one observation of `fieldPath` (analyzer.py lines 190-214):
create the entry if the path is new, then mutate the entry at that path. -/
def registerObservation (reg : List FieldEntry) (fieldPath key : String)
    (info : FieldInfo) (vt : String) (ctx : Option String) (v : JValue) : List FieldEntry :=
  let reg :=
    if reg.any (fun e => e.path = fieldPath) then reg
    else reg ++ [freshEntry fieldPath key info vt]
  reg.map (fun e => if e.path = fieldPath then bumpEntry ctx v e else e)

/-- Path concatenation of analyzer.py line 155:
`field_path = f"{path}.{key}" if path else key`. -/
def joinPath (path key : String) : String :=
  if path = "" then key else path ++ "." ++ key

mutual

/-- Shallow embedding of `discover_fields_recursive` (analyzer.py lines
120-226).  The function returns the registry unchanged once `depth`
exceeds `maxDepth`, walks the key/value pairs of a mapping, and ignores
non-mapping values (the Python body only has an `isinstance(obj, dict)`
branch). -/
def discover_fields_recursive (lookup : String → Option String → FieldInfo)
    (v : JValue) (path : String) (reg : List FieldEntry)
    (depth maxDepth : Nat) (context : Option String) : List FieldEntry :=
  if depth > maxDepth then reg
  else
    match v with
    | .obj fields => discoverObjFields lookup fields path reg depth maxDepth context
    | _ => reg
termination_by structural v

/-- The `for key, value in obj.items()` loop of discover_fields_recursive. -/
def discoverObjFields (lookup : String → Option String → FieldInfo)
    (fields : List (String × JValue)) (path : String) (reg : List FieldEntry)
    (depth maxDepth : Nat) (context : Option String) : List FieldEntry :=
  match fields with
  | [] => reg
  | (key, value) :: rest =>
    let fieldPath := joinPath path key
    let cctx := childContextFor key context
    let info := lookup key cctx
    let vt := classifyType value
    let reg := registerObservation reg fieldPath key info vt context value
    let reg :=
      match value with
      | .obj f2 =>
        discover_fields_recursive lookup (.obj f2) fieldPath reg (depth + 1) maxDepth cctx
      | .arr items => discoverArrItems lookup items 0 fieldPath reg (depth + 1) maxDepth cctx
      | _ => reg
    discoverObjFields lookup rest path reg depth maxDepth context
termination_by structural fields

/-- The `for i, item in enumerate(value[:3])` loop of
discover_fields_recursive: recurse into the first 3 elements that are
mappings, at child path `fieldPath[i]`. -/
def discoverArrItems (lookup : String → Option String → FieldInfo)
    (items : List JValue) (i : Nat) (fieldPath : String) (reg : List FieldEntry)
    (depth maxDepth : Nat) (context : Option String) : List FieldEntry :=
  match items with
  | [] => reg
  | item :: rest =>
    if i ≥ 3 then reg
    else
      let reg :=
        match item with
        | .obj f2 =>
          discover_fields_recursive lookup (.obj f2)
            (fieldPath ++ "[" ++ toString i ++ "]") reg depth maxDepth context
        | _ => reg
      discoverArrItems lookup rest (i + 1) fieldPath reg depth maxDepth context
termination_by structural items

end

/-- Python banker's rounding (round-half-to-even), as performed by the
built-in `round` on the exact quotient.  The analyzer applies `round` to
quotients of integers; the embedding computes the same rounding on the
exact rational value.  The fractional part `q - floor q` is compared with
one half through its numerator over the denominator of `q` (all integer
arithmetic, keeping the definition kernel-computable): with
`f = floor q`, `q - f < 1/2` iff `2 * (q.num - f * q.den) < q.den`. -/
def roundHalfEven (q : ℚ) : ℤ :=
  let f := q.floor
  let twiceRem := 2 * (q.num - f * (q.den : ℤ))
  if twiceRem < (q.den : ℤ) then f
  else if twiceRem > (q.den : ℤ) then f + 1
  else if f % 2 = 0 then f else f + 1

/-- Python `round(x, 2)` on the exact rational value:
`mkRat (roundHalfEven (q * 100)) 100`, written with `mkRat` and the exact
product `q * 100 = mkRat (q.num * 100) q.den` to keep the definition
kernel-computable (`mkRat a b = (a : ℚ) / b` by `Rat.mkRat_eq_div`). -/
def roundTo2 (q : ℚ) : ℚ :=
  mkRat (roundHalfEven (mkRat (q.num * 100) q.den)) 100

/-- Python `needle in hay` substring containment, on character lists. -/
def infixB (needle hay : List Char) : Bool :=
  match hay with
  | [] => needle.isEmpty
  | _ :: rest => needle.isPrefixOf hay || infixB needle rest

/-- Python `needle in hay` substring containment on strings. -/
def strIn (needle hay : String) : Bool :=
  infixB needle.data hay.data

/-- Helper for removeOccs: while `skip > 0` the scanner is inside an already
matched occurrence and drops characters; at `skip = 0` it tests whether the
pattern starts here, dropping the first matched character and arming the
counter for the remaining ones. -/
def removeOccsAux (pat : List Char) : Nat → List Char → List Char
  | _, [] => []
  | skip + 1, _ :: rest => removeOccsAux pat skip rest
  | 0, c :: rest =>
    if pat ≠ [] ∧ pat.isPrefixOf (c :: rest) then removeOccsAux pat (pat.length - 1) rest
    else c :: removeOccsAux pat 0 rest

/-- Remove every non-overlapping occurrence of `pat` from `l`, scanning left
to right: Python `s.replace(pat, "")` for a non-empty pattern. -/
def removeOccs (pat : List Char) (l : List Char) : List Char :=
  removeOccsAux pat 0 l

/-- Python `int(part)`: an optional sign followed by ASCII digits.
(Python additionally strips surrounding whitespace and allows digit-group
underscores; field-path parts never contain those, and accepting them would
only widen index resolution.)  `none` models a raised ValueError. -/
def pyParseInt (s : String) : Option Int :=
  let digitsVal : List Char → Int :=
    fun ds => ds.foldl (fun acc c => acc * 10 + ((c.toNat : Int) - ('0'.toNat : Int))) 0
  match s.data with
  | [] => none
  | '-' :: ds => if ds ≠ [] ∧ ds.all Char.isDigit then some (-(digitsVal ds)) else none
  | '+' :: ds => if ds ≠ [] ∧ ds.all Char.isDigit then some (digitsVal ds) else none
  | ds => if ds.all Char.isDigit then some (digitsVal ds) else none

/-- Python list subscription `xs[idx]` for an `idx` already known to satisfy
`idx < len(xs)`: non-negative indices address from the front, negative
indices from the back, and an index below `-len(xs)` raises IndexError
(modelled as `none`). -/
def pyListGet (xs : List JValue) (idx : Int) : Option JValue :=
  if 0 ≤ idx then xs.get? idx.toNat
  else if 0 ≤ (xs.length : Int) + idx then xs.get? ((xs.length : Int) + idx).toNat
  else none

/-- Path preprocessing of get_nested_value (analyzer.py line 670):
`path.replace("[", ".").replace("]", "").split(".")`. -/
def pathParts (path : String) : List String :=
  (List.splitOn '.'
    ((path.data.map (fun c => if c = '[' then '.' else c)).filter (fun c => c ≠ ']'))).map
    String.mk

/-- The per-part step of the get_nested_value loop (analyzer.py lines
676-685), shared by the pure model and the exception-explicit model: a dict
looks the part up, a list parses the part as an index (an unparsable part
raises ValueError, caught by the caller, hence `none`) and subscripts when
the index is below the length, anything else resolves to None. -/
def gnvStep (cur : JValue) (part : String) : Option JValue :=
  match cur with
  | .obj fields => (fields.find? (fun kv => kv.1 = part)).map (fun kv => kv.2)
  | .arr xs =>
    match pyParseInt part with
    | some idx => if idx < (xs.length : Int) then pyListGet xs idx else none
    | none => none
  | _ => none

/-- The traversal loop of get_nested_value (analyzer.py lines 673-688).
Python's None is identified with JSON null: a dict miss, a key whose value
is JSON null, an in-bounds index holding JSON null, and an index at or above
`len` all set `current = None`, and the loop then returns None (`none`
here).  An unparsable part (ValueError) or an index below `-len`
(IndexError) is caught and returns None. -/
def get_nested_value_go : JValue → List String → Option JValue
  | cur, [] => some cur
  | cur, part :: ps =>
    if part = "" then get_nested_value_go cur ps
    else
      match gnvStep cur part with
      | none => none
      | some .null => none
      | some v => get_nested_value_go v ps

/-- Shallow embedding of `get_nested_value` (analyzer.py lines 668-690).
The wrapper maps a JSON-null result (possible only when every path part is
empty, so the root is returned unchanged) to `none`, since Python returns
the ambient None in that situation. -/
def get_nested_value (obj : JValue) (path : String) : Option JValue :=
  match get_nested_value_go obj (pathParts path) with
  | some .null => none
  | r => r

/-- The Python exception kinds relevant to get_nested_value: ValueError
(raised by `int(part)`), IndexError (raised by list subscription),
TypeError (subscripting a non-container) and AttributeError (calling `.get`
on a non-dict). -/
inductive PyExc where
  | valueError
  | indexError
  | typeError
  | attributeError
  deriving DecidableEq

/-- Exception-explicit model of the body of the `for part in parts` loop of
get_nested_value: each Python primitive that can raise returns `Except`,
and the `try/except (ValueError, IndexError)` of lines 679-683 catches
exactly those two kinds.  The isinstance checks of lines 676-684 make the
TypeError/AttributeError arms unreachable. -/
def gnvStepExc (cur : JValue) (part : String) : Except PyExc (Option JValue) :=
  match cur with
  | .obj fields => .ok ((fields.find? (fun kv => kv.1 = part)).map (fun kv => kv.2))
  | .arr xs =>
    let tried : Except PyExc (Option JValue) :=
      match pyParseInt part with
      | none => .error .valueError
      | some idx =>
        if idx < (xs.length : Int) then
          if 0 ≤ idx then .ok (xs.get? idx.toNat)
          else if 0 ≤ (xs.length : Int) + idx then .ok (xs.get? ((xs.length : Int) + idx).toNat)
          else .error .indexError
        else .ok none
    match tried with
    | .error .valueError => .ok none
    | .error .indexError => .ok none
    | .error e => .error e
    | .ok v => .ok v
  | _ => .ok none

/-- Exception-explicit model of the get_nested_value loop; an uncaught
exception would surface as `.error`. -/
def get_nested_value_exc_go : JValue → List String → Except PyExc (Option JValue)
  | cur, [] => .ok (some cur)
  | cur, part :: ps =>
    if part = "" then get_nested_value_exc_go cur ps
    else
      match gnvStepExc cur part with
      | .error e => .error e
      | .ok none => .ok none
      | .ok (some .null) => .ok none
      | .ok (some v) => get_nested_value_exc_go v ps

/-- Exception-explicit model of get_nested_value. -/
def get_nested_value_exc (obj : JValue) (path : String) : Except PyExc (Option JValue) :=
  match get_nested_value_exc_go obj (pathParts path) with
  | .ok (some .null) => .ok none
  | r => r

/-- Character sanitization step of sanitize_bq_field_name (analyzer.py line
740): `re.sub(r'[\.\[\]]', '_', path)` replaces dots and brackets by
underscores. -/
def sanitizeMapChars (l : List Char) : List Char :=
  l.map (fun c => if c = '.' ∨ c = '[' ∨ c = ']' then '_' else c)

/-- `re.sub(r'_+', '_', name)` (analyzer.py line 742): collapse each maximal
run of underscores to a single underscore. -/
def collapseUnd : List Char → List Char
  | [] => []
  | c :: rest =>
    if c = '_' then
      match rest with
      | '_' :: _ => collapseUnd rest
      | _ => '_' :: collapseUnd rest
    else c :: collapseUnd rest

/-- `name.strip('_')` (analyzer.py line 744): drop leading and trailing
underscores. -/
def stripUnd (l : List Char) : List Char :=
  ((l.dropWhile (fun c => c = '_')).reverse.dropWhile (fun c => c = '_')).reverse

/-- Leading-character fix of analyzer.py lines 746-747: when the sanitized
name is non-empty and does not start with a letter, prefix it with "f_".
(Python's str.isalpha is Unicode-aware; on the ASCII alphabet covered by the
verified properties it agrees with Char.isAlpha.) -/
def forceAlphaHead (l : List Char) : List Char :=
  match l with
  | [] => []
  | c :: _ => if c.isAlpha then l else 'f' :: '_' :: l

/-- Shallow embedding of `sanitize_bq_field_name` (analyzer.py lines
737-748), including the final `name[:128]` length cap. -/
def sanitize_bq_field_name (path : String) : String :=
  String.mk ((forceAlphaHead (stripUnd (collapseUnd (sanitizeMapChars path.data)))).take 128)

/-- Shallow embedding of `format_duration` (analyzer.py lines 693-704);
Python `//` and `divmod` are floor-based division and remainder. -/
def format_duration (ms : Int) : String :=
  let seconds := ms.fdiv 1000
  let minutes := seconds.fdiv 60
  let seconds := seconds.emod 60
  let hours := minutes.fdiv 60
  let minutes := minutes.emod 60
  if hours > 0 then
    toString hours ++ "h " ++ toString minutes ++ "m " ++ toString seconds ++ "s"
  else if minutes > 0 then
    toString minutes ++ "m " ++ toString seconds ++ "s"
  else
    toString seconds ++ "s"

/-- Shallow embedding of `infer_bq_type` (analyzer.py lines 707-734); the
checks are Python substring tests on the discovered type name, with a
fallback on the first sample value.  (isinstance(first, bool) is tested
before isinstance(first, int), matching Python where bool is a subtype of
int; the modelled value universe has no separate float constructor.) -/
def infer_bq_type (python_type : String) (sample_values : List JValue) : String :=
  if strIn "int" python_type then "INT64"
  else if strIn "float" python_type then "FLOAT64"
  else if strIn "bool" python_type then "BOOL"
  else if strIn "array" python_type then
    if strIn "object" python_type then "RECORD"
    else if strIn "array" python_type then "STRING"
    else "ARRAY<STRING>"
  else if strIn "dict" python_type then "RECORD"
  else
    match sample_values with
    | first :: _ =>
      match first with
      | .bool _ => "BOOL"
      | .int _ => "INT64"
      | _ => "STRING"
    | [] => "STRING"

/-- Python `str(value)` for the scalar values reaching the distribution
pass (containers and None are filtered out before stringification). -/
def pyStr : JValue → String
  | .null => "None"
  | .bool true => "True"
  | .bool false => "False"
  | .int n => toString n
  | .str s => s
  | .arr _ => ""
  | .obj _ => ""

/-- A registry entry after the phase-1 post-pass added its presence
percentage (analyzer.py lines 298-300). -/
structure RankedField extends FieldEntry where
  presence_pct : ℚ

/-- Per-field summary stored under a category (analyzer.py lines 318-325). -/
structure CatField where
  path : String
  key : String
  name : String
  ftype : String
  presence_pct : ℚ
  ml_relevance : String

/-- Category metadata resolved by the external category lookup
(`get_category_info` with its icon/description/color fallbacks). -/
structure CategoryInfo where
  icon : String
  description : String
  color : String

/-- One entry of `field_categories` (analyzer.py lines 338-344). -/
structure CategoryOut extends CategoryInfo where
  field_count : Nat
  fields : List CatField

/-- `structure_analysis` (analyzer.py lines 361-366). -/
structure StructureAnalysis where
  top_level_fields : List String
  nested_structures : List String
  max_depth : Nat
  total_unique_paths : Nat

/-- One row of a value distribution (analyzer.py line 405). -/
structure DistItem where
  value : String
  count : Nat
  pct : ℚ

/-- One entry of `value_distributions` (analyzer.py lines 399-408). -/
structure Distribution where
  field : String
  field_name : String
  unique_values : Nat
  sample_size : Nat
  distribution : List DistItem

/-- `temporal_analysis` (analyzer.py lines 424-432). -/
structure TemporalAnalysis where
  timestamp_field : String
  first_timestamp : Int
  last_timestamp : Int
  duration_ms : Int
  duration_readable : String
  total_timestamps : Nat
  avg_interval_ms : Int

/-- The four completeness-tier counters (analyzer.py lines 484-489). -/
structure Completeness where
  always_present : Nat
  mostly_present : Nat
  sometimes_present : Nat
  rarely_present : Nat

/-- `data_quality` (analyzer.py lines 483-496). -/
structure DataQuality where
  completeness : Completeness
  always_present_fields : List String
  rarely_present_fields : List String
  record_count : Nat
  unique_field_paths : Nat

/-- One suggested BigQuery column (analyzer.py lines 508-514). -/
structure BQColumn where
  name : String
  ftype : String
  mode : String
  description : String
  source_path : String

/-- `schema_recommendations` (analyzer.py lines 516-523). -/
structure SchemaRecommendations where
  bigquery_schema : List BQColumn
  notes : List String

/-- `data_profile` (analyzer.py lines 546-553). -/
structure DataProfile where
  has_prices : Bool
  has_volume : Bool
  has_order_book : Bool
  has_time_series : Bool
  has_market_definition : Bool
  has_trd : Bool

/-- The result object of analyze_records.  Sections that the empty-batch
shell leaves as empty dicts (and that a non-empty run fills) are modelled
as `Option`; the plugin-produced suggestion records and derived-feature
data are opaque JSON values. -/
structure Report where
  total_records : Nat
  discovered_fields : List RankedField
  field_categories : List (String × CategoryOut)
  structure_analysis : Option StructureAnalysis
  value_distributions : List (String × Distribution)
  temporal_analysis : Option TemporalAnalysis
  examples : List (String × JValue)
  data_quality : Option DataQuality
  schema_recommendations : Option SchemaRecommendations
  ml_suggestions : List JValue
  derived_features : Option JValue
  data_profile : Option DataProfile

/-- Phase 1 (analyzer.py lines 284-291): walk every record with the shared
registry, starting at the record root with empty path, depth 0, the default
maximum depth 10 and no context. -/
def buildRegistry (lookup : String → Option String → FieldInfo)
    (records : List JValue) : List FieldEntry :=
  records.foldl (fun reg r => discover_fields_recursive lookup r "" reg 0 10 none) []

/-- Phase 1 post-pass (analyzer.py lines 298-300):
`presence_pct = round((count / len(records)) * 100, 2)`; the exact quotient
`(count / total) * 100` is written `mkRat (count * 100) total`. -/
def rankField (total : Nat) (e : FieldEntry) : RankedField :=
  { e with presence_pct := roundTo2 (mkRat ((e.count : ℤ) * 100) total) }

/-- The comparison realised by `sorted(..., key=lambda x: (-x["presence_pct"], x["path"]))`
(analyzer.py lines 303-306): `a` may precede `b` iff `a` has strictly higher
presence, or equal presence and lexicographically smaller-or-equal path. -/
def fieldLE (a b : RankedField) : Prop :=
  b.presence_pct < a.presence_pct ∨ (a.presence_pct = b.presence_pct ∧ a.path ≤ b.path)

instance : DecidableRel fieldLE := fun a b =>
  decidable_of_iff
    (b.presence_pct < a.presence_pct ∨ (a.presence_pct = b.presence_pct ∧ a.path ≤ b.path))
    Iff.rfl

instance : IsTrans RankedField fieldLE := by
  constructor
  intro a b c hab hbc
  simp only [fieldLE] at *
  rcases hab with h1 | ⟨h1, h1p⟩ <;> rcases hbc with h2 | ⟨h2, h2p⟩
  · exact Or.inl (lt_trans h2 h1)
  · exact Or.inl (by rw [← h2]; exact h1)
  · exact Or.inl (by rw [h1]; exact h2)
  · exact Or.inr ⟨h1.trans h2, h1p.trans h2p⟩

instance : IsTotal RankedField fieldLE := by
  constructor
  intro a b
  simp only [fieldLE]
  rcases lt_trichotomy a.presence_pct b.presence_pct with h | h | h
  · exact Or.inr (Or.inl h)
  · rcases le_total a.path b.path with hp | hp
    · exact Or.inl (Or.inr ⟨h, hp⟩)
    · exact Or.inr (Or.inr ⟨h.symm, hp⟩)
  · exact Or.inl (Or.inl h)

/-- The sorted field list of phase 1.  Python's `sorted` is a stable sort;
a stable sort with respect to a total preorder has a unique result, so the
(stable) insertion sort computes exactly it. -/
def sortFields (l : List RankedField) : List RankedField :=
  l.insertionSort fieldLE

/-- The reduced per-field record appended under its category
(analyzer.py lines 318-325). -/
def mkCatField (f : RankedField) : CatField :=
  { path := f.path, key := f.key, name := f.name, ftype := f.ftype,
    presence_pct := f.presence_pct, ml_relevance := f.ml_relevance }

/-- Phase 2 grouping (analyzer.py lines 315-325): a defaultdict(list) keyed
by category, preserving first-appearance order of categories and in-order
appends. -/
def groupByCategory (fields : List RankedField) : List (String × List CatField) :=
  fields.foldl (fun acc f =>
    if acc.any (fun p => p.1 = f.category) then
      acc.map (fun p => if p.1 = f.category then (p.1, p.2 ++ [mkCatField f]) else p)
    else acc ++ [(f.category, [mkCatField f])]) []

/-- Phase 2 (analyzer.py lines 328-344): attach the external category
metadata to every group. -/
def buildCategories (catLookup : String → CategoryInfo) (sorted : List RankedField) :
    List (String × CategoryOut) :=
  (groupByCategory sorted).map (fun p =>
    let ci := catLookup p.1
    (p.1, { icon := ci.icon, description := ci.description, color := ci.color,
            field_count := p.2.length, fields := p.2 }))

/-- Phase 3 (analyzer.py lines 352-366).  The Python `nested_paths` set is
modelled as an insertion-ordered duplicate-free list. -/
def buildStructureAnalysis (sorted : List RankedField) : StructureAnalysis :=
  let nested := sorted.foldl (fun acc f =>
    let parts := List.splitOn '.' f.path.data
    (List.range parts.length).foldl (fun acc i =>
      if i = 0 then acc
      else
        let pre := String.mk (List.intercalate ['.'] (parts.take i))
        if pre ∈ acc then acc else acc ++ [pre]) acc) []
  { top_level_fields :=
      (sorted.filter (fun f => !(strIn "." f.path) && !(strIn "[" f.path))).map
        (fun f => f.key)
    nested_structures := nested
    max_depth := (sorted.map (fun f => (List.splitOn '.' f.path.data).length)).foldl max 0
    total_unique_paths := sorted.length }

/-- The fixed allow-list of categorical key names (analyzer.py lines
374-377). -/
def categorical_candidates : List String :=
  ["op", "status", "marketType", "bettingType", "countryCode",
   "venue", "ct", "inPlay", "complete", "side"]

/-- Key extraction of analyzer.py line 380:
`field_path.split(".")[-1].replace("[0]", "").replace("[1]", "").replace("[2]", "")`. -/
def distFieldKey (path : String) : String :=
  let last := (List.splitOn '.' path.data).getLast?.getD []
  String.mk (removeOccs "[2]".data (removeOccs "[1]".data (removeOccs "[0]".data last)))

/-- Value collection of the distribution pass (analyzer.py lines 384-388):
resolve the path in each of the first 10,000 records and keep the
stringified value when resolution produced a non-None, non-container
value. -/
def collectFieldValues (records : List JValue) (fieldPath : String) : List String :=
  (records.take 10000).foldl (fun vals r =>
    match get_nested_value r fieldPath with
    | some v =>
      match v with
      | .null => vals
      | .obj _ => vals
      | .arr _ => vals
      | v => vals ++ [pyStr v]
    | none => vals) []

/-- Occurrence counting with a defaultdict(int) (analyzer.py lines 392-394),
preserving first-occurrence order of the distinct values. -/
def countValues (vals : List String) : List (String × Nat) :=
  vals.foldl (fun acc v =>
    if acc.any (fun p => p.1 = v) then
      acc.map (fun p => if p.1 = v then (p.1, p.2 + 1) else p)
    else acc ++ [(v, 1)]) []

/-- The comparison of `sorted(value_counts.items(), key=lambda x: -x[1])`
(analyzer.py line 397); a stable sort keeps insertion order on ties. -/
def distLE (a b : String × Nat) : Prop :=
  b.2 ≤ a.2

instance : DecidableRel distLE := fun a b =>
  decidable_of_iff (b.2 ≤ a.2) Iff.rfl

/-- Phase 4 (analyzer.py lines 379-408): for every registry path whose
extracted key is an allow-listed categorical key and that yielded at least
one value, report the top-20 most frequent stringified values. -/
def buildDistributions (registry : List FieldEntry) (records : List JValue) :
    List (String × Distribution) :=
  registry.foldl (fun acc e =>
    if categorical_candidates.contains (distFieldKey e.path) then
      let values := collectFieldValues records e.path
      if !values.isEmpty then
        let counts := countValues values
        acc ++ [(e.path,
          { field := e.path
            field_name := e.name
            unique_values := counts.length
            sample_size := values.length
            distribution := ((counts.insertionSort distLE).take 20).map (fun p =>
              { value := p.1, count := p.2,
                pct := roundTo2 (mkRat ((p.2 : ℤ) * 100) values.length) }) })]
      else acc
    else acc) []

/-- Phase 5 collection (analyzer.py lines 416-420): `pt = record.get("pt");
if pt: timestamps.append(pt)`.  Python truthiness skips an absent key, a
null and a zero publish time.  The embedding covers batches whose publish
times are integers (the well-known `pt` field carries epoch milliseconds);
theorems about this pass assume records carry integer or null `pt` values
when present. -/
def collectTimestamps (records : List JValue) : List Int :=
  records.foldl (fun ts r =>
    match jGet r "pt" with
    | some (.int n) => if n ≠ 0 then ts ++ [n] else ts
    | _ => ts) []

/-- The timestamp phase 5 extracts from a single record: its `pt` value
when that is a truthy (non-zero) integer (analyzer.py lines 418-420),
nothing when `pt` is absent, null or zero. -/
def ptOf (r : JValue) : Option Int :=
  match jGet r "pt" with
  | some (.int n) => if n ≠ 0 then some n else none
  | _ => none


/-- Phase 5 (analyzer.py lines 422-432): with no timestamps the section
stays empty; with exactly one, duration and average interval report as
0 / "N/A"; with at least two, duration is last minus first of the sorted
list and the average interval is `round(duration / len(timestamps))`. -/
def buildTemporal (ts : List Int) : Option TemporalAnalysis :=
  if ts.isEmpty then none
  else
    let sorted := ts.insertionSort (fun a b => a ≤ b)
    let first := sorted.headD 0
    let last := sorted.getLastD 0
    some { timestamp_field := "pt (Publish Time)"
           first_timestamp := first
           last_timestamp := last
           duration_ms := if sorted.length > 1 then last - first else 0
           duration_readable :=
             if sorted.length > 1 then format_duration (last - first) else "N/A"
           total_timestamps := sorted.length
           avg_interval_ms :=
             if sorted.length > 1 then roundHalfEven (mkRat (last - first) sorted.length)
             else 0 }

/-- Python `key in value` for a JSON object. -/
def hasKeyB (v : JValue) (k : String) : Bool :=
  match v with
  | .obj fields => fields.any (fun kv => kv.1 = k)
  | _ => false

/-- The price-bearing runner-change keys of analyzer.py line 464. -/
def price_keys : List String :=
  ["ltp", "batb", "batl", "trd"]

/-- Market-definition example predicate (analyzer.py lines 444-452): the
record's `mc` is a truthy list one of whose elements is a dict containing
"marketDefinition". -/
def recordHasMarketDef (r : JValue) : Bool :=
  let mc := (jGet r "mc").getD (.arr [])
  jTruthy mc &&
    (match mc with
     | .arr ms => ms.any (fun m => hasKeyB m "marketDefinition")
     | _ => false)

/-- A runner-change element carrying at least one price-bearing key
(analyzer.py lines 463-464). -/
def rcEntryHasPrice (rr : JValue) : Bool :=
  match rr with
  | .obj _ => price_keys.any (fun k => hasKeyB rr k)
  | _ => false

/-- A market-change element whose `rc` is a truthy non-empty list with a
price-bearing runner change (analyzer.py lines 459-464). -/
def mcEntryHasPriceRC (m : JValue) : Bool :=
  match m with
  | .obj _ =>
    hasKeyB m "rc" &&
      (match jGet m "rc" with
       | some rc =>
         jTruthy rc &&
           (match rc with
            | .arr rs => rs.length > 0 && rs.any rcEntryHasPrice
            | _ => false)
       | none => false)
  | _ => false

/-- Price-data example predicate (analyzer.py lines 455-470). -/
def recordHasPriceData (r : JValue) : Bool :=
  let mc := (jGet r "mc").getD (.arr [])
  jTruthy mc &&
    (match mc with
     | .arr ms => ms.any mcEntryHasPriceRC
     | _ => false)

/-- Phase 6 (analyzer.py lines 439-470): the first record, plus the first
of the leading 1,000 records matching each example predicate; a slot with
no match within 1,000 records is omitted. -/
def buildExamples (records : List JValue) : List (String × JValue) :=
  let ex : List (String × JValue) :=
    match records with
    | [] => []
    | r :: _ => [("first_record", r)]
  let ex :=
    match (records.take 1000).find? recordHasMarketDef with
    | some r => ex ++ [("with_market_definition", r)]
    | none => ex
  match (records.take 1000).find? recordHasPriceData with
  | some r => ex ++ [("with_price_data", r)]
  | none => ex

/-- Phase 7 (analyzer.py lines 478-496): completeness tiering by presence
percentage. -/
def buildDataQuality (sorted : List RankedField) (total : Nat) : DataQuality :=
  let always := sorted.filter (fun f => decide (f.presence_pct = (100 : ℚ)))
  let mostly := sorted.filter (fun f =>
    decide ((95 : ℚ) ≤ f.presence_pct) && decide (f.presence_pct < (100 : ℚ)))
  let sometimes := sorted.filter (fun f =>
    decide ((50 : ℚ) ≤ f.presence_pct) && decide (f.presence_pct < (95 : ℚ)))
  let rarely := sorted.filter (fun f => decide (f.presence_pct < (50 : ℚ)))
  { completeness :=
      { always_present := always.length
        mostly_present := mostly.length
        sometimes_present := sometimes.length
        rarely_present := rarely.length }
    always_present_fields := always.map (fun f => f.path)
    rarely_present_fields := (rarely.take 20).map (fun f => f.path)
    record_count := total
    unique_field_paths := sorted.length }

/-- The fixed notes of the schema recommendation (analyzer.py lines
518-522). -/
def schema_notes : List String :=
  ["Schema based on fields present in ≥50% of records",
   "Nested fields flattened with underscore separators",
   "Array fields may need additional handling"]

/-- Phase 8 (analyzer.py lines 504-523): a suggested column for every
sorted entry with presence at least 50, REQUIRED when presence is exactly
100, capped to the first 50 columns. -/
def buildSchema (sorted : List RankedField) : SchemaRecommendations :=
  let bq := (sorted.filter (fun f => decide ((50 : ℚ) ≤ f.presence_pct))).map (fun f =>
    { name := sanitize_bq_field_name f.path
      ftype := infer_bq_type f.ftype f.sample_values
      mode := if f.presence_pct = (100 : ℚ) then "REQUIRED" else "NULLABLE"
      description := f.description
      source_path := f.path : BQColumn })
  { bigquery_schema := bq.take 50, notes := schema_notes }

/-- Phase 9 data-shape predicates (analyzer.py lines 531-536 and 546-553):
Python substring tests against every discovered path. -/
def buildDataProfile (sorted : List RankedField) (tsCount : Nat) : DataProfile :=
  { has_prices := sorted.any (fun f => strIn "ltp" f.path || strIn "batb" f.path)
    has_volume := sorted.any (fun f => strIn "tv" f.path || strIn "trd" f.path)
    has_order_book := sorted.any (fun f => strIn "batb" f.path || strIn "batl" f.path)
    has_time_series := tsCount > 100
    has_market_definition := sorted.any (fun f => strIn "marketDefinition" f.path)
    has_trd := sorted.any (fun f => strIn "trd" f.path) }

/-- The zeroed report shell built at analyzer.py lines 262-274 and returned
unchanged for an empty batch (line 276-277). -/
def emptyReport : Report :=
  { total_records := 0
    discovered_fields := []
    field_categories := []
    structure_analysis := none
    value_distributions := []
    temporal_analysis := none
    examples := []
    data_quality := none
    schema_recommendations := none
    ml_suggestions := []
    derived_features := none
    data_profile := none }

/-- Shallow embedding of `analyze_records` (analyzer.py lines 229-665) on a
pre-loaded batch.  The field-metadata lookup, the category lookup, the
plugin-driven suggestion generation of phase 9 and the plugin's derived
features are external collaborators passed as parameters. -/
def analyze_records (lookup : String → Option String → FieldInfo)
    (catLookup : String → CategoryInfo)
    (mlPass : DataProfile → List JValue) (derivedFeatures : JValue)
    (records : List JValue) : Report :=
  if records.isEmpty then emptyReport
  else
    let registry := buildRegistry lookup records
    let total := records.length
    let sorted := sortFields (registry.map (rankField total))
    let ts := collectTimestamps records
    let profile := buildDataProfile sorted ts.length
    { total_records := total
      discovered_fields := sorted
      field_categories := buildCategories catLookup sorted
      structure_analysis := some (buildStructureAnalysis sorted)
      value_distributions := buildDistributions registry records
      temporal_analysis := buildTemporal ts
      examples := buildExamples records
      data_quality := some (buildDataQuality sorted total)
      schema_recommendations := some (buildSchema sorted)
      ml_suggestions := mlPass profile
      derived_features := some derivedFeatures
      data_profile := some profile }

/-- An ASCII letter or digit. -/
def isAlnum (c : Char) : Bool :=
  c.isAlpha || c.isDigit

/-- A character allowed after the first position of a valid BigQuery column
name: letter, digit or underscore. -/
def isBQNameChar (c : Char) : Bool :=
  c.isAlpha || c.isDigit || c == '_'

/-- The specification's column-name pattern: a full-string match of
`[A-Za-z][A-Za-z0-9_]*` (the anchored regex of the spec). -/
def matchesBQName (s : String) : Bool :=
  match s.data with
  | [] => false
  | c :: rest => c.isAlpha && rest.all isBQNameChar

/-- No two consecutive underscores, on character lists. -/
def noDoubleUnderscoreL : List Char → Bool
  | [] => true
  | [_] => true
  | a :: b :: rest => !(a == '_' && b == '_') && noDoubleUnderscoreL (b :: rest)

/-- No two consecutive underscores in a string. -/
def noDoubleUnderscore (s : String) : Bool :=
  noDoubleUnderscoreL s.data

/-- Adjacent-pair relation "not both underscores". -/
def ndR (a b : Char) : Prop :=
  ¬(a = '_' ∧ b = '_')

/-- The path alphabet for which sanitize_bq_field_name produces valid
column names: letters, digits, underscores and the path punctuation that
the sanitizer replaces. -/
def cleanPathChar (c : Char) : Bool :=
  isAlnum c || c == '_' || c == '.' || c == '[' || c == ']'

/-- A mapping key that cannot corrupt path identity: non-empty and free of
the path metacharacters dot and square brackets, which the walker uses to
build path strings. -/
def cleanKeyB (k : String) : Bool :=
  !k.data.isEmpty && k.data.all (fun c => c != '.' && c != '[' && c != ']')

mutual

/-- A JSON value all of whose mappings have duplicate-free, metacharacter
free, non-empty keys (Python dicts are duplicate-free by construction; the
key condition is the amendment under which path strings identify structural
positions uniquely). -/
def cleanValueB : JValue → Bool
  | .obj fields => cleanFieldsB fields
  | .arr items => cleanItemsB items
  | _ => true

/-- cleanValueB on the bindings of a mapping, also requiring that no key
reappears later in the same mapping. -/
def cleanFieldsB : List (String × JValue) → Bool
  | [] => true
  | (k, v) :: rest =>
    cleanKeyB k && !(rest.any (fun kv => kv.1 = k)) && cleanValueB v && cleanFieldsB rest

/-- cleanValueB on the elements of an array. -/
def cleanItemsB : List JValue → Bool
  | [] => true
  | v :: rest => cleanValueB v && cleanItemsB rest

end

/-- The count stored in the registry for path `p` (0 when the path has no
entry). -/
def countOf (reg : List FieldEntry) (p : String) : Nat :=
  match reg.find? (fun e => e.path = p) with
  | some e => e.count
  | none => 0

mutual

/-- The field paths registered, in call order, by one walk of `v` at
`path`: the fieldPath argument of every registerObservation call made by
discover_fields_recursive (same traversal, same depth guard; the registry
and context are dropped since neither influences which paths are
registered). -/
def regPathsV (v : JValue) (path : String) (depth maxDepth : Nat) : List String :=
  if depth > maxDepth then []
  else
    match v with
    | .obj fields => regPathsF fields path depth maxDepth
    | _ => []
termination_by structural v

/-- The field paths registered by the `for key, value in obj.items()` loop. -/
def regPathsF (fields : List (String × JValue)) (path : String)
    (depth maxDepth : Nat) : List String :=
  match fields with
  | [] => []
  | (key, value) :: rest =>
    joinPath path key ::
      ((match value with
        | .obj f2 => regPathsV (.obj f2) (joinPath path key) (depth + 1) maxDepth
        | .arr items => regPathsA items 0 (joinPath path key) (depth + 1) maxDepth
        | _ => []) ++ regPathsF rest path depth maxDepth)
termination_by structural fields

/-- The field paths registered by the `for i, item in enumerate(value[:3])`
loop. -/
def regPathsA (items : List JValue) (i : Nat) (fieldPath : String)
    (depth maxDepth : Nat) : List String :=
  match items with
  | [] => []
  | item :: rest =>
    if i ≥ 3 then []
    else
      (match item with
       | .obj f2 =>
         regPathsV (.obj f2) (fieldPath ++ "[" ++ toString i ++ "]") depth maxDepth
       | _ => []) ++ regPathsA rest (i + 1) fieldPath depth maxDepth
termination_by structural items

end

/-- A path tail that continues an enclosing field path: it starts with one
of the two separators the walker can emit after a path, the dot of
`f"{path}.{key}"` or the opening bracket of `f"{field_path}[{i}]"`. -/
def SepTail (t : List Char) : Prop :=
  ∃ c u, t = c :: u ∧ (c = '.' ∨ c = '[')

/-- A record carrying a top-level publish-time scalar (the analyzer's
well-known `pt` field; the embedding's timestamp domain is the integers). -/
def hasPtScalar (r : JValue) : Bool :=
  match jGet r "pt" with
  | some (.int _) => true
  | _ => false

/-- The deterministic fallback shape of the field-metadata lookup contract
(name defaulting to the key, category "Unknown", ml_relevance "unknown"),
used to instantiate the external-lookup parameter in concrete runs. -/
def unknownFieldLookup : String → Option String → FieldInfo :=
  fun k _ => { name := k, description := "", category := "Unknown", ml_relevance := "unknown" }

/-- A concrete category lookup (the "Unknown" descriptor fallback), used to
instantiate the external category-lookup parameter in concrete runs. -/
def unknownCategoryLookup : String → CategoryInfo :=
  fun _ => { icon := "?", description := "Unknown category", color := "#6B7280" }

/-- A plugin suggestion pass producing no suggestions, used to instantiate
the external plugin parameter in concrete runs. -/
def emptyMLPass : DataProfile → List JValue :=
  fun _ => []

/-- analyze_records with all external collaborators instantiated at their
fallbacks, for concrete runs. -/
def analyzeWithFallbacks (records : List JValue) : Report :=
  analyze_records unknownFieldLookup unknownCategoryLookup emptyMLPass .null records

/-- A record whose single key contains a dash: JSON `{"a-b": 1}`. -/
def dashKeyRecord : JValue :=
  .obj [("a-b", .int 1)]

/-- A record in which two structurally distinct positions produce the same
path string "a.b": JSON `{"a": {"b": 1}, "a.b": 2}`. -/
def collidingRecord : JValue :=
  .obj [("a", .obj [("b", .int 1)]), ("a.b", .int 2)]

/-- A record with publish time zero: JSON `{"pt": 0}`. -/
def zeroPtRecord : JValue :=
  .obj [("pt", .int 0)]

/-- A record with publish time five: JSON `{"pt": 5}`. -/
def fivePtRecord : JValue :=
  .obj [("pt", .int 5)]

/-- A record with publish time two: JSON `{"pt": 2}`. -/
def twoPtRecord : JValue :=
  .obj [("pt", .int 2)]

/-- The stringified scalar the distribution pass extracts from one record
for one field path (analyzer.py lines 386-388): the resolved value when
resolution succeeded with a non-None, non-container value, else nothing. -/
def scalarStringOf (r : JValue) (path : String) : Option String :=
  match get_nested_value r path with
  | some v =>
    match v with
    | .null => none
    | .obj _ => none
    | .arr _ => none
    | v => some (pyStr v)
  | none => none

/-- Is this value a JSON object (Python dict)? -/
def isObjB : JValue → Bool
  | .obj _ => true
  | _ => false

/-- Every array sample stored by the walker holds at most its source's
first 3 elements. -/
def arrLenLe3B : JValue → Bool
  | .arr xs => decide (xs.length ≤ 3)
  | _ => true

/-- The sample-list invariant of one registry entry: at most 5 samples,
none of them a dict, every array sample truncated to at most 3 elements. -/
def sampleInvB (e : FieldEntry) : Bool :=
  decide (e.sample_values.length ≤ 5) &&
    e.sample_values.all (fun s => !isObjB s && arrLenLe3B s)

/-- The sample-list invariant over a whole registry. -/
def regInvB (reg : List FieldEntry) : Bool :=
  reg.all sampleInvB

/-- The fields of a registry entry that are fixed at entry creation and
never overwritten: identity (path, key), the metadata copied from the
lookup result, and the classified value type. -/
def metaEq (e e' : FieldEntry) : Prop :=
  e'.path = e.path ∧ e'.key = e.key ∧ e'.name = e.name ∧
  e'.description = e.description ∧ e'.category = e.category ∧
  e'.ml_relevance = e.ml_relevance ∧ e'.ftype = e.ftype

/-- One mutation of the registry: the effect of registering a single
observation, with arbitrary parameters. -/
def RegStep (reg reg' : List FieldEntry) : Prop :=
  ∃ fp key info vt ctx v, reg' = registerObservation reg fp key info vt ctx v

/-- A record whose only field value is a dict: JSON `{"x": {"y": 1}}`. -/
def allDictRecord : JValue :=
  .obj [("x", .obj [("y", .int 1)])]

/-- A record whose only field value is a 10-element list:
JSON `{"x": [1,1,1,1,1,1,1,1,1,1]}`. -/
def bigListRecord : JValue :=
  .obj [("x", .arr (List.replicate 10 (.int 1)))]

/-- The registry entry produced by walking dashKeyRecord with the fallback
lookup. -/
def dashEntry : FieldEntry :=
  { path := "a-b", key := "a-b", name := "a-b", description := "",
    category := "Unknown", ml_relevance := "unknown", ftype := "int",
    count := 1, sample_values := [.int 1], contexts := [] }

/-- A pre-existing registry entry used to exercise the frame property of
later observations. -/
def metaWitnessEntry : FieldEntry :=
  { path := "q", key := "q", name := "N", description := "D", category := "C",
    ml_relevance := "M", ftype := "T", count := 3, sample_values := [],
    contexts := [] }

/-- C9: analyze_records on an empty record batch returns, without error and
without running any statistics pass (the empty-batch short circuit of
analyzer.py lines 276-277 returns the freshly initialised shell before
phase 1), a report with total_records = 0 and every report section present
but empty: empty field list, empty categories, empty distributions, empty
temporal analysis, empty examples, empty quality and schema sections, and
an empty suggestion list. -/
theorem analyze_records_empty_batch
    (lookup : String → Option String → FieldInfo) (catLookup : String → CategoryInfo)
    (mlPass : DataProfile → List JValue) (derivedFeatures : JValue) :
    analyze_records lookup catLookup mlPass derivedFeatures [] = emptyReport ∧
    emptyReport.total_records = 0 ∧
    emptyReport.discovered_fields = [] ∧
    emptyReport.field_categories = [] ∧
    emptyReport.structure_analysis = none ∧
    emptyReport.value_distributions = [] ∧
    emptyReport.temporal_analysis = none ∧
    emptyReport.examples = [] ∧
    emptyReport.data_quality = none ∧
    emptyReport.schema_recommendations = none ∧
    emptyReport.ml_suggestions = [] :=
  ⟨rfl, rfl, rfl, rfl, rfl, rfl, rfl, rfl, rfl, rfl, rfl⟩

theorem sanitizeMapChars_all_bq {l : List Char}
    (h : ∀ c ∈ l, cleanPathChar c = true) :
    ∀ c ∈ sanitizeMapChars l, isBQNameChar c = true := by
  intro c hc
  simp only [sanitizeMapChars, List.mem_map] at hc
  obtain ⟨x, hx, hmap⟩ := hc
  by_cases hpunct : x = '.' ∨ x = '[' ∨ x = ']'
  · simp only [hpunct, if_pos] at hmap
    subst hmap
    decide
  · rw [if_neg hpunct] at hmap
    subst hmap
    have := h x hx
    simp only [cleanPathChar, isAlnum, Bool.or_eq_true, beq_iff_eq] at this
    simp only [isBQNameChar, Bool.or_eq_true, beq_iff_eq]
    tauto

theorem isAlnum_ne_punct {c : Char} (h : isAlnum c = true) :
    c ≠ '.' ∧ c ≠ '[' ∧ c ≠ ']' := by
  refine ⟨?_, ?_, ?_⟩ <;> (intro he; subst he; revert h; decide)

theorem sanitizeMapChars_keeps_alnum {l : List Char} {c : Char}
    (hc : c ∈ l) (ha : isAlnum c = true) : c ∈ sanitizeMapChars l := by
  have hne := isAlnum_ne_punct ha
  simp only [sanitizeMapChars, List.mem_map]
  refine ⟨c, hc, ?_⟩
  rw [if_neg]
  rintro (h | h | h) <;> simp [h] at hne

theorem collapseUnd_subset {l : List Char} {c : Char}
    (h : c ∈ collapseUnd l) : c ∈ l := by
  induction l with
  | nil => simpa [collapseUnd] using h
  | cons x rest ih =>
    by_cases hx : x = '_'
    · subst hx
      match rest, h with
      | '_' :: t, h => exact List.mem_cons_of_mem _ (ih (by simpa [collapseUnd] using h))
      | [], h => simpa [collapseUnd] using h
      | c2 :: t, h =>
        by_cases hc2 : c2 = '_'
        · subst hc2
          exact List.mem_cons_of_mem _ (ih (by simpa [collapseUnd] using h))
        · rw [show collapseUnd ('_' :: c2 :: t) = '_' :: collapseUnd (c2 :: t) by
            simp [collapseUnd, hc2]] at h
          rcases List.mem_cons.mp h with h | h
          · exact h ▸ List.mem_cons_self _ _
          · exact List.mem_cons_of_mem _ (ih h)
    · rw [show collapseUnd (x :: rest) = x :: collapseUnd rest by simp [collapseUnd, hx]] at h
      rcases List.mem_cons.mp h with h | h
      · exact h ▸ List.mem_cons_self _ _
      · exact List.mem_cons_of_mem _ (ih h)

theorem collapseUnd_keeps_ne_und {l : List Char} {c : Char}
    (hc : c ∈ l) (hne : c ≠ '_') : c ∈ collapseUnd l := by
  induction l with
  | nil => simp at hc
  | cons x rest ih =>
    rcases List.mem_cons.mp hc with h | h
    · subst h
      match rest with
      | [] => simp [collapseUnd, hne]
      | c2 :: t =>
        rw [show collapseUnd (c :: c2 :: t) = c :: collapseUnd (c2 :: t) by
          simp [collapseUnd, hne]]
        exact List.mem_cons_self _ _
    · by_cases hx : x = '_'
      · subst hx
        match rest with
        | '_' :: t => simpa [collapseUnd] using ih h
        | [] => simp at h
        | c2 :: t =>
          by_cases hc2 : c2 = '_'
          · subst hc2
            simpa [collapseUnd] using ih h
          · rw [show collapseUnd ('_' :: c2 :: t) = '_' :: collapseUnd (c2 :: t) by
              simp [collapseUnd, hc2]]
            exact List.mem_cons_of_mem _ (ih h)
      · rw [show collapseUnd (x :: rest) = x :: collapseUnd rest by simp [collapseUnd, hx]]
        exact List.mem_cons_of_mem _ (ih h)

theorem noDD_iff_chain : ∀ l : List Char,
    (noDoubleUnderscoreL l = true ↔ List.Chain' ndR l)
  | [] => by simp [noDoubleUnderscoreL]
  | [a] => by simp [noDoubleUnderscoreL]
  | a :: b :: t => by
    rw [List.chain'_cons]
    simp only [noDoubleUnderscoreL, Bool.and_eq_true, Bool.not_eq_true']
    rw [noDD_iff_chain (b :: t)]
    constructor
    · rintro ⟨h1, h2⟩
      refine ⟨?_, h2⟩
      simp only [Bool.and_eq_false_iff, beq_eq_false_iff_ne, ne_eq] at h1
      exact fun hc => by tauto
    · rintro ⟨h1, h2⟩
      refine ⟨?_, h2⟩
      simp only [Bool.and_eq_false_iff, beq_eq_false_iff_ne, ne_eq]
      by_cases ha : a = '_'
      · exact Or.inr (fun hb => h1 ⟨ha, hb⟩)
      · exact Or.inl ha

theorem chain_ndR_collapseUnd : ∀ l : List Char, List.Chain' ndR (collapseUnd l)
  | [] => by simp [collapseUnd]
  | x :: rest => by
    by_cases hx : x = '_'
    · subst hx
      match rest with
      | '_' :: t => simpa [collapseUnd] using chain_ndR_collapseUnd ('_' :: t)
      | [] => simp [collapseUnd, ndR]
      | c2 :: t =>
        by_cases hc2 : c2 = '_'
        · subst hc2
          simpa [collapseUnd] using chain_ndR_collapseUnd ('_' :: t)
        · rw [show collapseUnd ('_' :: c2 :: t) = '_' :: collapseUnd (c2 :: t) by
            simp [collapseUnd, hc2]]
          rw [List.chain'_cons']
          refine ⟨?_, chain_ndR_collapseUnd (c2 :: t)⟩
          intro h hh
          rw [show collapseUnd (c2 :: t) = c2 :: collapseUnd t by simp [collapseUnd, hc2]] at hh
          simp only [List.head?_cons, Option.mem_def, Option.some.injEq] at hh
          subst hh
          exact fun hc => hc2 hc.2
    · rw [show collapseUnd (x :: rest) = x :: collapseUnd rest by simp [collapseUnd, hx]]
      rw [List.chain'_cons']
      exact ⟨fun h _ hc => hx hc.1, chain_ndR_collapseUnd rest⟩

theorem chain_ndR_of_reverse {l : List Char}
    (h : List.Chain' ndR l) : List.Chain' ndR l.reverse := by
  rw [List.chain'_reverse]
  exact h.imp (fun a b hab hc => hab ⟨hc.2, hc.1⟩)

theorem chain_ndR_stripUnd {l : List Char}
    (h : List.Chain' ndR l) : List.Chain' ndR (stripUnd l) := by
  unfold stripUnd
  exact chain_ndR_of_reverse
    ((chain_ndR_of_reverse (h.suffix (List.dropWhile_suffix _))).suffix
      (List.dropWhile_suffix _))

theorem mem_stripUnd_of_ne {l : List Char} {c : Char}
    (hc : c ∈ l) (hne : c ≠ '_') : c ∈ stripUnd l := by
  have step : ∀ (m : List Char), c ∈ m → c ∈ m.dropWhile (fun x => x = '_') := by
    intro m hm
    have := (List.takeWhile_append_dropWhile (fun x => x = '_') m) ▸ hm
    rcases List.mem_append.mp this with h | h
    · have hp := List.mem_takeWhile_imp h
      exact absurd (of_decide_eq_true hp) hne
    · exact h
  unfold stripUnd
  rw [List.mem_reverse]
  exact step _ (List.mem_reverse.mpr (step _ hc))

theorem dropWhile_head_not {p : Char → Bool} (l : List Char) :
    ∀ {c t}, l.dropWhile p = c :: t → p c = false := by
  induction l with
  | nil => intro c t h; simp [List.dropWhile] at h
  | cons x xs ih =>
    intro c t h
    rw [List.dropWhile_cons] at h
    by_cases hx : p x = true
    · exact ih (by simpa [hx] using h)
    · rw [if_neg hx] at h
      cases h
      exact Bool.not_eq_true _ ▸ hx

theorem stripUnd_isPref (l : List Char) :
    stripUnd l <+: l.dropWhile (fun x => x = '_') := by
  have h := List.reverse_prefix.mpr
    (@List.dropWhile_suffix Char ((l.dropWhile (fun x => x = '_')).reverse)
      (fun x => x = '_'))
  simpa [stripUnd] using h

theorem stripUnd_head_ne {l : List Char} {c : Char} {t : List Char}
    (h : stripUnd l = c :: t) : c ≠ '_' := by
  obtain ⟨s, hs⟩ := stripUnd_isPref l
  rw [h] at hs
  have hd : List.dropWhile (fun x => x = '_') l = c :: (t ++ s) := by
    rw [← hs]
    simp
  intro hc
  have hfalse := dropWhile_head_not _ hd
  simp [hc] at hfalse

theorem mem_of_mem_stripUnd {l : List Char} {c : Char}
    (h : c ∈ stripUnd l) : c ∈ l := by
  have h1 := (stripUnd_isPref l).subset h
  exact (List.dropWhile_suffix (fun x => x = '_')).subset h1

theorem isAlnum_ne_und {c : Char} (h : isAlnum c = true) : c ≠ '_' := by
  intro he
  subst he
  exact absurd h (by decide)

/-- C1 (amended): for every field path over the sanitizer-covered alphabet
(letters, digits, underscores, dots and square brackets — the alphabet of
paths built from metacharacter-free alphanumeric keys) containing at least
one letter or digit, the sanitized BigQuery column name matches
`[A-Za-z][A-Za-z0-9_]*`, has length at most 128, and contains no two
consecutive underscores.  (The unamended claim, quantifying over paths from
arbitrary JSON records, is refuted by the dashed key of
sanitize_bq_field_name_counterexample: the sanitizer replaces only dots and
brackets, so any other non-alphanumeric key character survives.) -/
theorem sanitize_bq_field_name_valid (path : String)
    (hclean : ∀ c ∈ path.data, cleanPathChar c = true)
    (halnum : ∃ c ∈ path.data, isAlnum c = true) :
    matchesBQName (sanitize_bq_field_name path) = true ∧
    (sanitize_bq_field_name path).length ≤ 128 ∧
    noDoubleUnderscore (sanitize_bq_field_name path) = true := by
  obtain ⟨a, ha, haAl⟩ := halnum
  have allBQ1 : ∀ c ∈ sanitizeMapChars path.data, isBQNameChar c = true :=
    sanitizeMapChars_all_bq hclean
  have allBQ3 : ∀ c ∈ stripUnd (collapseUnd (sanitizeMapChars path.data)),
      isBQNameChar c = true :=
    fun c hc => allBQ1 c (collapseUnd_subset (mem_of_mem_stripUnd hc))
  have chain3 : List.Chain' ndR (stripUnd (collapseUnd (sanitizeMapChars path.data))) :=
    chain_ndR_stripUnd (chain_ndR_collapseUnd _)
  have haS3 : a ∈ stripUnd (collapseUnd (sanitizeMapChars path.data)) :=
    mem_stripUnd_of_ne
      (collapseUnd_keeps_ne_und (sanitizeMapChars_keeps_alnum ha haAl) (isAlnum_ne_und haAl))
      (isAlnum_ne_und haAl)
  obtain ⟨c0, t0, hS3⟩ :=
    List.exists_cons_of_ne_nil (List.ne_nil_of_mem haS3)
  have hc0ne : c0 ≠ '_' := stripUnd_head_ne hS3
  have hc0bq : isBQNameChar c0 = true := allBQ3 c0 (hS3 ▸ List.mem_cons_self _ _)
  -- the three facts about the forceAlphaHead output
  have hS4 : ∃ hh rr, forceAlphaHead (stripUnd (collapseUnd (sanitizeMapChars path.data)))
      = hh :: rr ∧ hh.isAlpha = true ∧ (∀ c ∈ rr, isBQNameChar c = true) ∧
      List.Chain' ndR (hh :: rr) := by
    rw [hS3]
    by_cases hAl : c0.isAlpha = true
    · refine ⟨c0, t0, by simp [forceAlphaHead, hAl], hAl, ?_, hS3 ▸ chain3⟩
      exact fun c hc => allBQ3 c (hS3 ▸ List.mem_cons_of_mem _ hc)
    · refine ⟨'f', '_' :: c0 :: t0, by simp [forceAlphaHead, hAl], by decide, ?_, ?_⟩
      · intro c hc
        rcases List.mem_cons.mp hc with h | h
        · subst h; decide
        · exact allBQ3 c (hS3 ▸ h)
      · rw [List.chain'_cons, List.chain'_cons]
        exact ⟨by simp [ndR], fun hc => hc0ne hc.2, hS3 ▸ chain3⟩
  obtain ⟨hh, rr, hS4eq, hhAl, hrrBQ, hchain4⟩ := hS4
  have hdata : (sanitize_bq_field_name path).data = hh :: rr.take 127 := by
    show ((forceAlphaHead (stripUnd (collapseUnd (sanitizeMapChars path.data)))).take 128) =
      hh :: rr.take 127
    rw [hS4eq]
    rfl
  refine ⟨?_, ?_, ?_⟩
  · unfold matchesBQName
    rw [hdata]
    simp only [Bool.and_eq_true, List.all_eq_true]
    exact ⟨hhAl, fun c hc => hrrBQ c (List.take_subset _ _ hc)⟩
  · show (sanitize_bq_field_name path).data.length ≤ 128
    rw [hdata]
    simp only [List.length_cons, List.length_take]
    omega
  · unfold noDoubleUnderscore
    rw [hdata]
    rw [noDD_iff_chain]
    have : (hh :: rr.take 127) = (hh :: rr).take 128 := rfl
    rw [this]
    exact hchain4.prefix (List.take_prefix _ _)

/-- Witness for sanitize_bq_field_name_valid at the concrete path
"mc[0].rc[0].ltp" (sanitized to "mc_0_rc_0_ltp"). -/
theorem sanitize_bq_field_name_valid_witness :
    matchesBQName (sanitize_bq_field_name "mc[0].rc[0].ltp") = true ∧
    (sanitize_bq_field_name "mc[0].rc[0].ltp").length ≤ 128 ∧
    noDoubleUnderscore (sanitize_bq_field_name "mc[0].rc[0].ltp") = true :=
  sanitize_bq_field_name_valid "mc[0].rc[0].ltp" (by decide) (by decide)

/-- C1 counterexample: walking the record `{"a-b": 1}` produces the field
path "a-b" (present in 100% of the one-record batch, hence emitted by the
schema-recommendation pass), and its sanitized column name is "a-b" itself,
which does not match `[A-Za-z][A-Za-z0-9_]*`: the sanitizer only replaces
dots and brackets, so the dash survives. -/
theorem sanitize_bq_field_name_counterexample :
    (analyzeWithFallbacks [dashKeyRecord]).schema_recommendations.map
      (fun s => s.bigquery_schema.map (fun c => c.name)) = some ["a-b"] ∧
    sanitize_bq_field_name "a-b" = "a-b" ∧
    matchesBQName "a-b" = false :=
  ⟨by decide, by decide, by decide⟩

theorem gnvStepExc_ok (cur : JValue) (part : String) :
    gnvStepExc cur part = .ok (gnvStep cur part) := by
  cases cur with
  | arr xs =>
    simp only [gnvStepExc, gnvStep]
    cases hpi : pyParseInt part with
    | none => rfl
    | some idx =>
      by_cases hlt : idx < (xs.length : Int)
      · simp only [if_pos hlt]
        unfold pyListGet
        by_cases h0 : 0 ≤ idx
        · simp [h0]
        · by_cases h1 : 0 ≤ (xs.length : Int) + idx
          · simp [h0, h1]
          · simp [h0, h1]
      · simp [hlt]
  | _ => rfl

theorem gnv_exc_go_eq : ∀ (parts : List String) (cur : JValue),
    get_nested_value_exc_go cur parts = .ok (get_nested_value_go cur parts) := by
  intro parts
  induction parts with
  | nil => intro cur; rfl
  | cons part ps ih =>
    intro cur
    by_cases hp : part = ""
    · simp only [get_nested_value_exc_go, get_nested_value_go, if_pos hp]
      exact ih cur
    · simp only [get_nested_value_exc_go, get_nested_value_go, if_neg hp, gnvStepExc_ok]
      cases ho : gnvStep cur part with
      | none => rfl
      | some v => cases v <;> first | rfl | exact ih _

theorem foldl_collect_filterMap {α β : Type} (f : α → Option β) :
    ∀ (l : List α) (acc : List β),
      l.foldl (fun vals r =>
        match f r with
        | some v => vals ++ [v]
        | none => vals) acc = acc ++ l.filterMap f := by
  intro l
  induction l with
  | nil => intro acc; simp
  | cons x xs ih =>
    intro acc
    cases hf : f x <;> simp [List.filterMap_cons, hf, ih]

/-- C7: get_nested_value is total: the exception-explicit model (in which
`int(part)` raises ValueError, list subscription raises IndexError, and the
`try/except (ValueError, IndexError)` of analyzer.py lines 679-683 catches
exactly those two kinds) never surfaces an exception and agrees with the
pure model on every record value and path string, returning the resolved
value or an absent result on any structural mismatch; and in the
distribution pass the values collected for a field are exactly the
stringified scalars of the records whose resolution succeeded — a record
whose resolution is absent contributes nothing. -/
theorem get_nested_value_total_and_filtered :
    (∀ (obj : JValue) (path : String),
       get_nested_value_exc obj path = .ok (get_nested_value obj path)) ∧
    (∀ (records : List JValue) (path : String),
       collectFieldValues records path =
         (records.take 10000).filterMap (fun r => scalarStringOf r path)) ∧
    (∀ (r : JValue) (path : String),
       get_nested_value r path = none → scalarStringOf r path = none) := by
  refine ⟨?_, ?_, ?_⟩
  · intro obj path
    unfold get_nested_value_exc get_nested_value
    rw [gnv_exc_go_eq]
    cases ho : get_nested_value_go obj (pathParts path) with
    | none => rfl
    | some v => cases v <;> rfl
  · intro records path
    unfold collectFieldValues
    have hfun : (fun (vals : List String) (r : JValue) =>
        match get_nested_value r path with
        | some v =>
          match v with
          | .null => vals
          | .obj _ => vals
          | .arr _ => vals
          | v => vals ++ [pyStr v]
        | none => vals) = (fun vals r =>
        match scalarStringOf r path with
        | some v => vals ++ [v]
        | none => vals) := by
      funext vals r
      unfold scalarStringOf
      cases ho : get_nested_value r path with
      | none => rfl
      | some v => cases v <;> rfl
    rw [hfun]
    have h := (foldl_collect_filterMap (fun r => scalarStringOf r path)
      (records.take 10000) []).trans (List.nil_append _)
    convert h using 2
    funext vals r
    cases scalarStringOf r path <;> rfl
  · intro r path h
    unfold scalarStringOf
    rw [h]

theorem discover_obj_eq (lookup : String → Option String → FieldInfo)
    (fields : List (String × JValue)) (path : String) (reg : List FieldEntry)
    (depth maxDepth : Nat) (context : Option String) :
    discover_fields_recursive lookup (.obj fields) path reg depth maxDepth context =
      if depth > maxDepth then reg
      else discoverObjFields lookup fields path reg depth maxDepth context := rfl

theorem discover_nonobj_eq (lookup : String → Option String → FieldInfo)
    (v : JValue) (path : String) (reg : List FieldEntry)
    (depth maxDepth : Nat) (context : Option String) (hv : isObjB v = false) :
    discover_fields_recursive lookup v path reg depth maxDepth context = reg := by
  cases v with
  | obj fields => simp [isObjB] at hv
  | null => simp [discover_fields_recursive, ite_self]
  | bool b => simp [discover_fields_recursive, ite_self]
  | int n => simp [discover_fields_recursive, ite_self]
  | str s => simp [discover_fields_recursive, ite_self]
  | arr items => simp [discover_fields_recursive, ite_self]

theorem discoverObjFields_nil (lookup : String → Option String → FieldInfo)
    (path : String) (reg : List FieldEntry)
    (depth maxDepth : Nat) (context : Option String) :
    discoverObjFields lookup [] path reg depth maxDepth context = reg := rfl

theorem discoverObjFields_cons (lookup : String → Option String → FieldInfo)
    (key : String) (value : JValue) (rest : List (String × JValue)) (path : String)
    (reg : List FieldEntry) (depth maxDepth : Nat) (context : Option String) :
    discoverObjFields lookup ((key, value) :: rest) path reg depth maxDepth context =
      discoverObjFields lookup rest path
        (match value with
         | JValue.obj f2 =>
           discover_fields_recursive lookup (.obj f2) (joinPath path key)
             (registerObservation reg (joinPath path key) key
               (lookup key (childContextFor key context)) (classifyType value) context value)
             (depth + 1) maxDepth (childContextFor key context)
         | JValue.arr items =>
           discoverArrItems lookup items 0 (joinPath path key)
             (registerObservation reg (joinPath path key) key
               (lookup key (childContextFor key context)) (classifyType value) context value)
             (depth + 1) maxDepth (childContextFor key context)
         | _ =>
           registerObservation reg (joinPath path key) key
             (lookup key (childContextFor key context)) (classifyType value) context value)
        depth maxDepth context := by
  cases value <;> rfl

theorem discoverArrItems_nil (lookup : String → Option String → FieldInfo)
    (i : Nat) (fieldPath : String) (reg : List FieldEntry)
    (depth maxDepth : Nat) (context : Option String) :
    discoverArrItems lookup [] i fieldPath reg depth maxDepth context = reg := rfl

theorem discoverArrItems_cons (lookup : String → Option String → FieldInfo)
    (item : JValue) (rest : List JValue) (i : Nat) (fieldPath : String)
    (reg : List FieldEntry) (depth maxDepth : Nat) (context : Option String) :
    discoverArrItems lookup (item :: rest) i fieldPath reg depth maxDepth context =
      if i ≥ 3 then reg
      else
        discoverArrItems lookup rest (i + 1) fieldPath
          (match item with
           | JValue.obj f2 =>
             discover_fields_recursive lookup (.obj f2)
               (fieldPath ++ "[" ++ toString i ++ "]") reg depth maxDepth context
           | _ => reg)
          depth maxDepth context := by
  cases item <;> rfl

mutual

theorem regReach_discover (lookup : String → Option String → FieldInfo)
    (v : JValue) (path : String) (reg : List FieldEntry)
    (depth maxDepth : Nat) (context : Option String) :
    Relation.ReflTransGen RegStep reg
      (discover_fields_recursive lookup v path reg depth maxDepth context) := by
  cases v with
  | obj fields =>
    rw [discover_obj_eq]
    by_cases hd : depth > maxDepth
    · rw [if_pos hd]
    · rw [if_neg hd]
      exact regReach_discoverObj lookup fields path reg depth maxDepth context
  | null => rw [discover_nonobj_eq lookup JValue.null path reg depth maxDepth context rfl]
  | bool b =>
    rw [discover_nonobj_eq lookup (JValue.bool b) path reg depth maxDepth context rfl]
  | int n => rw [discover_nonobj_eq lookup (JValue.int n) path reg depth maxDepth context rfl]
  | str s => rw [discover_nonobj_eq lookup (JValue.str s) path reg depth maxDepth context rfl]
  | arr items =>
    rw [discover_nonobj_eq lookup (JValue.arr items) path reg depth maxDepth context rfl]
termination_by sizeOf v

theorem regReach_discoverObj (lookup : String → Option String → FieldInfo)
    (fields : List (String × JValue)) (path : String) (reg : List FieldEntry)
    (depth maxDepth : Nat) (context : Option String) :
    Relation.ReflTransGen RegStep reg
      (discoverObjFields lookup fields path reg depth maxDepth context) := by
  match fields with
  | [] =>
    rw [discoverObjFields_nil]
  | (key, value) :: rest =>
    rw [discoverObjFields_cons]
    have hstep : Relation.ReflTransGen RegStep reg
        (registerObservation reg (joinPath path key) key
          (lookup key (childContextFor key context)) (classifyType value) context value) :=
      Relation.ReflTransGen.single
        ⟨joinPath path key, key, lookup key (childContextFor key context),
          classifyType value, context, value, rfl⟩
    cases value with
    | obj f2 =>
      exact ((hstep.trans (regReach_discover lookup (.obj f2) (joinPath path key) _
        (depth + 1) maxDepth (childContextFor key context))).trans
        (regReach_discoverObj lookup rest path _ depth maxDepth context))
    | arr items =>
      exact ((hstep.trans (regReach_discoverArr lookup items 0 (joinPath path key) _
        (depth + 1) maxDepth (childContextFor key context))).trans
        (regReach_discoverObj lookup rest path _ depth maxDepth context))
    | null => exact hstep.trans (regReach_discoverObj lookup rest path _ depth maxDepth context)
    | bool b => exact hstep.trans (regReach_discoverObj lookup rest path _ depth maxDepth context)
    | int n => exact hstep.trans (regReach_discoverObj lookup rest path _ depth maxDepth context)
    | str s => exact hstep.trans (regReach_discoverObj lookup rest path _ depth maxDepth context)
termination_by sizeOf fields

theorem regReach_discoverArr (lookup : String → Option String → FieldInfo)
    (items : List JValue) (i : Nat) (fieldPath : String) (reg : List FieldEntry)
    (depth maxDepth : Nat) (context : Option String) :
    Relation.ReflTransGen RegStep reg
      (discoverArrItems lookup items i fieldPath reg depth maxDepth context) := by
  match items with
  | [] =>
    rw [discoverArrItems_nil]
  | item :: rest =>
    rw [discoverArrItems_cons]
    by_cases hi : i ≥ 3
    · rw [if_pos hi]
    · rw [if_neg hi]
      cases item with
      | obj f2 =>
        exact (regReach_discover lookup (.obj f2)
          (fieldPath ++ "[" ++ toString i ++ "]") reg depth maxDepth context).trans
          (regReach_discoverArr lookup rest (i + 1) fieldPath _ depth maxDepth context)
      | null => exact regReach_discoverArr lookup rest (i + 1) fieldPath _ depth maxDepth context
      | bool b => exact regReach_discoverArr lookup rest (i + 1) fieldPath _ depth maxDepth context
      | int n => exact regReach_discoverArr lookup rest (i + 1) fieldPath _ depth maxDepth context
      | str s => exact regReach_discoverArr lookup rest (i + 1) fieldPath _ depth maxDepth context
      | arr xs => exact regReach_discoverArr lookup rest (i + 1) fieldPath _ depth maxDepth context
termination_by sizeOf items

end

theorem regReach_preserve {P : List FieldEntry → Prop}
    (hP : ∀ reg fp key info vt ctx v, P reg → P (registerObservation reg fp key info vt ctx v))
    {a b : List FieldEntry} (h : Relation.ReflTransGen RegStep a b) (ha : P a) : P b := by
  induction h with
  | refl => exact ha
  | tail _ hstep ih =>
    obtain ⟨fp, key, info, vt, ctx, v, rfl⟩ := hstep
    exact hP _ _ _ _ _ _ _ ih

theorem regReach_buildRegistry (lookup : String → Option String → FieldInfo)
    (records : List JValue) :
    Relation.ReflTransGen RegStep [] (buildRegistry lookup records) := by
  unfold buildRegistry
  generalize hinit : ([] : List FieldEntry) = init
  rw [show records.foldl (fun reg r => discover_fields_recursive lookup r "" reg 0 10 none) init
    = records.foldl (fun reg r => discover_fields_recursive lookup r "" reg 0 10 none) init
    from rfl]
  clear hinit
  induction records generalizing init with
  | nil => exact Relation.ReflTransGen.refl
  | cons r rest ih =>
    exact Relation.ReflTransGen.trans
      (regReach_discover lookup r "" init 0 10 none) (ih _)

theorem bumpEntry_sample_values (ctx : Option String) (v : JValue) (e : FieldEntry) :
    (bumpEntry ctx v e).sample_values =
      if e.sample_values.length < 5 && sampleAllowed v
      then e.sample_values ++ [truncateSample v] else e.sample_values := by
  cases ctx with
  | none =>
    simp only [bumpEntry]
    split <;> rfl
  | some c =>
    by_cases hc : c ∈ e.contexts
    · simp only [bumpEntry, if_pos hc]
      split <;> rfl
    · simp only [bumpEntry, if_neg hc]
      split <;> rfl

theorem bumpEntry_meta (ctx : Option String) (v : JValue) (e : FieldEntry) :
    metaEq e (bumpEntry ctx v e) := by
  unfold metaEq
  cases ctx with
  | none =>
    simp only [bumpEntry]
    split <;> exact ⟨rfl, rfl, rfl, rfl, rfl, rfl, rfl⟩
  | some c =>
    by_cases hc : c ∈ e.contexts
    · simp only [bumpEntry, if_pos hc]
      split <;> exact ⟨rfl, rfl, rfl, rfl, rfl, rfl, rfl⟩
    · simp only [bumpEntry, if_neg hc]
      split <;> exact ⟨rfl, rfl, rfl, rfl, rfl, rfl, rfl⟩

theorem metaEq_trans {a b c : FieldEntry} (h1 : metaEq a b) (h2 : metaEq b c) : metaEq a c := by
  obtain ⟨p1, k1, n1, d1, c1, m1, t1⟩ := h1
  obtain ⟨p2, k2, n2, d2, c2, m2, t2⟩ := h2
  exact ⟨p2.trans p1, k2.trans k1, n2.trans n1, d2.trans d1, c2.trans c1,
    m2.trans m1, t2.trans t1⟩

theorem truncateSample_ok {v : JValue} (hv : sampleAllowed v = true) :
    isObjB (truncateSample v) = false ∧ arrLenLe3B (truncateSample v) = true := by
  cases v with
  | obj fs => simp [sampleAllowed] at hv
  | arr xs =>
    cases xs with
    | nil => exact ⟨rfl, rfl⟩
    | cons x t =>
      refine ⟨rfl, ?_⟩
      simp only [truncateSample, arrLenLe3B, decide_eq_true_eq]
      exact List.length_take_le 3 (x :: t)
  | null => exact ⟨rfl, rfl⟩
  | bool b => exact ⟨rfl, rfl⟩
  | int n => exact ⟨rfl, rfl⟩
  | str s => exact ⟨rfl, rfl⟩

theorem bumpEntry_sampleInv (ctx : Option String) (v : JValue) {e : FieldEntry}
    (he : sampleInvB e = true) : sampleInvB (bumpEntry ctx v e) = true := by
  have hs := bumpEntry_sample_values ctx v e
  simp only [sampleInvB, Bool.and_eq_true, decide_eq_true_eq, List.all_eq_true] at he ⊢
  obtain ⟨hlen, hall⟩ := he
  rw [hs]
  by_cases hcond : (e.sample_values.length < 5 && sampleAllowed v) = true
  · rw [if_pos hcond]
    simp only [Bool.and_eq_true, decide_eq_true_eq] at hcond
    obtain ⟨hlt, hallow⟩ := hcond
    constructor
    · simp only [List.length_append, List.length_cons, List.length_nil]
      omega
    · intro s hsmem
      rcases List.mem_append.mp hsmem with h | h
      · exact hall s h
      · rcases List.mem_singleton.mp h with rfl
        obtain ⟨h1, h2⟩ := truncateSample_ok hallow
        simp [h1, h2]
  · rw [if_neg hcond]
    exact ⟨hlen, hall⟩

theorem freshEntry_sampleInv (fp key : String) (info : FieldInfo) (vt : String) :
    sampleInvB (freshEntry fp key info vt) = true := rfl

theorem registerObservation_regInv {reg : List FieldEntry}
    (fp key : String) (info : FieldInfo) (vt : String) (ctx : Option String) (v : JValue)
    (h : regInvB reg = true) :
    regInvB (registerObservation reg fp key info vt ctx v) = true := by
  simp only [registerObservation, regInvB, List.all_eq_true] at h ⊢
  intro e he
  rw [List.mem_map] at he
  obtain ⟨e0, he0, rfl⟩ := he
  have he0inv : sampleInvB e0 = true := by
    by_cases hany : reg.any (fun x => x.path = fp) = true
    · rw [if_pos hany] at he0
      exact h e0 he0
    · rw [if_neg hany] at he0
      rcases List.mem_append.mp he0 with h1 | h1
      · exact h e0 h1
      · rcases List.mem_singleton.mp h1 with rfl
        exact freshEntry_sampleInv fp key info vt
  by_cases hp : e0.path = fp
  · simp only [if_pos hp]
    exact bumpEntry_sampleInv ctx v he0inv
  · simp only [if_neg hp]
    exact he0inv

theorem buildRegistry_regInv (lookup : String → Option String → FieldInfo)
    (records : List JValue) : regInvB (buildRegistry lookup records) = true := by
  refine @regReach_preserve (fun reg => regInvB reg = true) ?_ []
    (buildRegistry lookup records) (regReach_buildRegistry lookup records) rfl
  intro reg fp key info vt ctx v hP
  exact registerObservation_regInv fp key info vt ctx v hP

theorem find?_map_pathKeep {g : FieldEntry → FieldEntry}
    (hg : ∀ e, (g e).path = e.path) (reg : List FieldEntry) (p : String) :
    (reg.map g).find? (fun e => e.path = p) =
      (reg.find? (fun e => e.path = p)).map g := by
  rw [List.find?_map]
  have hpred : ((fun e : FieldEntry => decide (e.path = p)) ∘ g) =
      (fun e : FieldEntry => decide (e.path = p)) := by
    funext e
    simp [Function.comp, hg]
  rw [hpred]

theorem bumpEntry_path (ctx : Option String) (v : JValue) (e : FieldEntry) :
    (bumpEntry ctx v e).path = e.path :=
  (bumpEntry_meta ctx v e).1

theorem registerObservation_find_absent (reg : List FieldEntry)
    (fp key : String) (info : FieldInfo) (vt : String) (ctx : Option String) (v : JValue)
    (h : reg.find? (fun e => e.path = fp) = none) :
    (registerObservation reg fp key info vt ctx v).find? (fun e => e.path = fp) =
      some (bumpEntry ctx v (freshEntry fp key info vt)) := by
  have hany : ¬(reg.any (fun e => e.path = fp) = true) := by
    rw [List.any_eq_true]
    rintro ⟨e, he, hpe⟩
    have := List.find?_eq_none.mp h e he
    exact this hpe
  have hg : ∀ e : FieldEntry,
      ((fun e => if e.path = fp then bumpEntry ctx v e else e) e).path = e.path := by
    intro e
    by_cases hp : e.path = fp
    · simp [hp, bumpEntry_path]
    · simp [hp]
  unfold registerObservation
  rw [if_neg hany, find?_map_pathKeep hg, List.find?_append, h]
  simp only [Option.none_or]
  have : List.find? (fun e => decide (e.path = fp)) [freshEntry fp key info vt] =
      some (freshEntry fp key info vt) := by
    simp [List.find?, freshEntry]
  rw [this]
  simp [freshEntry]

theorem registerObservation_find_present (reg : List FieldEntry)
    (fp key : String) (info : FieldInfo) (vt : String) (ctx : Option String) (v : JValue)
    (p : String) (e : FieldEntry)
    (h : reg.find? (fun x => x.path = p) = some e) :
    (registerObservation reg fp key info vt ctx v).find? (fun x => x.path = p) =
      some (if e.path = fp then bumpEntry ctx v e else e) := by
  have hg : ∀ x : FieldEntry,
      ((fun x => if x.path = fp then bumpEntry ctx v x else x) x).path = x.path := by
    intro x
    by_cases hp : x.path = fp
    · simp [hp, bumpEntry_path]
    · simp [hp]
  unfold registerObservation
  by_cases hany : reg.any (fun x => x.path = fp) = true
  · rw [if_pos hany, find?_map_pathKeep hg, h]
    rfl
  · rw [if_neg hany, find?_map_pathKeep hg, List.find?_append, h]
    rfl

theorem regReach_find_meta {a b : List FieldEntry}
    (hab : Relation.ReflTransGen RegStep a b) (p : String) (e : FieldEntry)
    (hfind : a.find? (fun x => x.path = p) = some e) :
    ∃ e', b.find? (fun x => x.path = p) = some e' ∧ metaEq e e' := by
  refine @regReach_preserve
    (fun reg => ∃ e', reg.find? (fun x => x.path = p) = some e' ∧ metaEq e e')
    ?_ a b hab ⟨e, hfind, rfl, rfl, rfl, rfl, rfl, rfl, rfl⟩
  rintro reg fp key info vt ctx v ⟨e', hfind', hmeta⟩
  rw [registerObservation_find_present reg fp key info vt ctx v p e' hfind']
  by_cases hp : e'.path = fp
  · exact ⟨_, by rw [if_pos hp], metaEq_trans hmeta (bumpEntry_meta ctx v e')⟩
  · exact ⟨_, by rw [if_neg hp], hmeta⟩

/-- C4: for every input batch, no registry entry ever holds more than 5
sample values — during the walk (the invariant is preserved by every call
of the walker on any registry satisfying it) and after it — and every list
value that is appended is stored truncated to its first 3 elements at the
moment of collection (so every stored array sample has at most 3
elements). -/
theorem sample_values_bounded :
    (∀ (lookup : String → Option String → FieldInfo) (v : JValue) (path : String)
       (reg : List FieldEntry) (depth maxDepth : Nat) (context : Option String),
       regInvB reg = true →
       regInvB (discover_fields_recursive lookup v path reg depth maxDepth context) = true) ∧
    (∀ (lookup : String → Option String → FieldInfo) (records : List JValue),
       ∀ e ∈ buildRegistry lookup records,
         e.sample_values.length ≤ 5 ∧
         ∀ s ∈ e.sample_values, ∀ xs, s = JValue.arr xs → xs.length ≤ 3) := by
  constructor
  · intro lookup v path reg depth maxDepth context hreg
    refine @regReach_preserve (fun r => regInvB r = true) ?_ reg _
      (regReach_discover lookup v path reg depth maxDepth context) hreg
    intro r fp key info vt ctx v2 hP
    exact registerObservation_regInv fp key info vt ctx v2 hP
  · intro lookup records e he
    have hinv := buildRegistry_regInv lookup records
    simp only [regInvB, List.all_eq_true] at hinv
    have he2 := hinv e he
    simp only [sampleInvB, Bool.and_eq_true, decide_eq_true_eq, List.all_eq_true] at he2
    obtain ⟨hlen, hall⟩ := he2
    refine ⟨hlen, ?_⟩
    intro s hs xs hxs
    have := (hall s hs).2
    rw [hxs] at this
    simpa [arrLenLe3B] using this

/-- Witness for sample_values_bounded: the invariant step applied to the
empty registry and a concrete record, and the final bound at the concrete
entry produced by that record. -/
theorem sample_values_bounded_witness :
    regInvB (discover_fields_recursive unknownFieldLookup dashKeyRecord "" [] 0 10 none)
      = true ∧
    (dashEntry.sample_values.length ≤ 5 ∧
      ∀ s ∈ dashEntry.sample_values, ∀ xs, s = JValue.arr xs → xs.length ≤ 3) :=
  ⟨sample_values_bounded.1 unknownFieldLookup dashKeyRecord "" [] 0 10 none rfl,
   sample_values_bounded.2 unknownFieldLookup [dashKeyRecord] dashEntry
     (by rw [show buildRegistry unknownFieldLookup [dashKeyRecord] = [dashEntry] from rfl]
         exact List.mem_singleton_self _)⟩

/-- C8: the identity, metadata and type fields of a registry entry are set
exactly once, at entry creation, from the first observation's lookup result
and type classification (first conjunct: registering an observation for an
absent path creates an entry carrying exactly the supplied lookup metadata
and classified type); every later observation — any further walking of any
values, with any contexts — leaves them all unchanged, mutating only count,
contexts and sample_values (second conjunct). -/
theorem metadata_set_once :
    (∀ (reg : List FieldEntry) (fp key : String) (info : FieldInfo) (vt : String)
       (ctx : Option String) (v : JValue),
       reg.find? (fun x => x.path = fp) = none →
       ∃ e', (registerObservation reg fp key info vt ctx v).find?
           (fun x => x.path = fp) = some e' ∧
         e'.path = fp ∧ e'.key = key ∧ e'.name = info.name ∧
         e'.description = info.description ∧ e'.category = info.category ∧
         e'.ml_relevance = info.ml_relevance ∧ e'.ftype = vt) ∧
    (∀ (lookup : String → Option String → FieldInfo) (v : JValue) (path : String)
       (reg : List FieldEntry) (depth maxDepth : Nat) (context : Option String)
       (p : String) (e : FieldEntry),
       reg.find? (fun x => x.path = p) = some e →
       ∃ e', (discover_fields_recursive lookup v path reg depth maxDepth context).find?
           (fun x => x.path = p) = some e' ∧
         e'.path = e.path ∧ e'.key = e.key ∧ e'.name = e.name ∧
         e'.description = e.description ∧ e'.category = e.category ∧
         e'.ml_relevance = e.ml_relevance ∧ e'.ftype = e.ftype) := by
  constructor
  · intro reg fp key info vt ctx v h
    rw [registerObservation_find_absent reg fp key info vt ctx v h]
    have m := bumpEntry_meta ctx v (freshEntry fp key info vt)
    exact ⟨_, rfl, m.1, m.2.1, m.2.2.1, m.2.2.2.1, m.2.2.2.2.1,
      m.2.2.2.2.2.1, m.2.2.2.2.2.2⟩
  · intro lookup v path reg depth maxDepth context p e h
    obtain ⟨e', hf, hm⟩ :=
      regReach_find_meta (regReach_discover lookup v path reg depth maxDepth context) p e h
    exact ⟨e', hf, hm.1, hm.2.1, hm.2.2.1, hm.2.2.2.1, hm.2.2.2.2.1,
      hm.2.2.2.2.2.1, hm.2.2.2.2.2.2⟩

/-- Witness for metadata_set_once: creation at a concrete observation of an
empty registry, and preservation of a concrete pre-existing entry through
the walk of a concrete record. -/
theorem metadata_set_once_witness :
    (∃ e', (registerObservation [] "a" "a"
        { name := "nm", description := "ds", category := "ct", ml_relevance := "ml" }
        "int" none (JValue.int 1)).find? (fun x => x.path = "a") = some e' ∧
      e'.path = "a" ∧ e'.key = "a" ∧ e'.name = "nm" ∧ e'.description = "ds" ∧
      e'.category = "ct" ∧ e'.ml_relevance = "ml" ∧ e'.ftype = "int") ∧
    (∃ e', (discover_fields_recursive unknownFieldLookup dashKeyRecord ""
        [metaWitnessEntry] 0 10 none).find? (fun x => x.path = "q") = some e' ∧
      e'.path = metaWitnessEntry.path ∧ e'.key = metaWitnessEntry.key ∧
      e'.name = metaWitnessEntry.name ∧ e'.description = metaWitnessEntry.description ∧
      e'.category = metaWitnessEntry.category ∧
      e'.ml_relevance = metaWitnessEntry.ml_relevance ∧
      e'.ftype = metaWitnessEntry.ftype) :=
  ⟨metadata_set_once.1 [] "a" "a"
      { name := "nm", description := "ds", category := "ct", ml_relevance := "ml" }
      "int" none (JValue.int 1) rfl,
   metadata_set_once.2 unknownFieldLookup dashKeyRecord "" [metaWitnessEntry] 0 10 none
      "q" metaWitnessEntry rfl⟩

/-- C10: the walker never appends a dict value to an entry's sample list
(first conjunct, and fourth: no registry entry ever holds a dict sample);
a list value is appended only when its length is strictly below 10 (second
conjunct: length 10 or more is never appended; third: an appendable list is
stored truncated to its first 3 elements); consequently an entry whose
observed values are always dicts, or always lists of length at least 10,
ends the run with an empty sample list (last two conjuncts, at concrete
one-record batches). -/
theorem sample_collection_excludes_containers :
    (∀ (ctx : Option String) (e : FieldEntry) (fs : List (String × JValue)),
       (bumpEntry ctx (JValue.obj fs) e).sample_values = e.sample_values) ∧
    (∀ (ctx : Option String) (e : FieldEntry) (xs : List JValue), 10 ≤ xs.length →
       (bumpEntry ctx (JValue.arr xs) e).sample_values = e.sample_values) ∧
    (∀ (ctx : Option String) (e : FieldEntry) (x : JValue) (xs : List JValue),
       (x :: xs).length < 10 → e.sample_values.length < 5 →
       (bumpEntry ctx (JValue.arr (x :: xs)) e).sample_values =
         e.sample_values ++ [JValue.arr ((x :: xs).take 3)]) ∧
    (∀ (lookup : String → Option String → FieldInfo) (records : List JValue),
       ∀ e ∈ buildRegistry lookup records, ∀ s ∈ e.sample_values, isObjB s = false) ∧
    ((buildRegistry unknownFieldLookup [allDictRecord]).find?
       (fun e => e.path = "x")).map (fun e => e.sample_values) = some [] ∧
    ((buildRegistry unknownFieldLookup [bigListRecord]).find?
       (fun e => e.path = "x")).map (fun e => e.sample_values) = some [] := by
  refine ⟨?_, ?_, ?_, ?_, rfl, rfl⟩
  · intro ctx e fs
    rw [bumpEntry_sample_values]
    simp [sampleAllowed]
  · intro ctx e xs hlen
    rw [bumpEntry_sample_values]
    have hfa : sampleAllowed (JValue.arr xs) = false := by
      simp only [sampleAllowed, decide_eq_false_iff_not, not_lt]
      exact hlen
    simp [hfa]
  · intro ctx e x xs hlen hroom
    rw [bumpEntry_sample_values]
    have hfa : sampleAllowed (JValue.arr (x :: xs)) = true := by
      simp only [sampleAllowed, decide_eq_true_eq]
      exact hlen
    rw [if_pos (by simp [hfa, hroom])]
    rfl
  · intro lookup records e he s hs
    have hinv := buildRegistry_regInv lookup records
    simp only [regInvB, List.all_eq_true] at hinv
    have he2 := hinv e he
    simp only [sampleInvB, Bool.and_eq_true, decide_eq_true_eq, List.all_eq_true] at he2
    have := (he2.2 s hs).1
    simpa using this

/-- Witness for sample_collection_excludes_containers: each guarded
conjunct applied at a concrete input. -/
theorem sample_collection_excludes_containers_witness :
    (bumpEntry none (JValue.obj [("y", JValue.int 1)]) metaWitnessEntry).sample_values =
      metaWitnessEntry.sample_values ∧
    (bumpEntry none (JValue.arr (List.replicate 10 (JValue.int 1)))
      metaWitnessEntry).sample_values = metaWitnessEntry.sample_values ∧
    (bumpEntry none (JValue.arr (JValue.int 1 :: [JValue.int 2]))
      metaWitnessEntry).sample_values =
      metaWitnessEntry.sample_values ++
        [JValue.arr ((JValue.int 1 :: [JValue.int 2]).take 3)] ∧
    isObjB (JValue.int 1) = false :=
  ⟨sample_collection_excludes_containers.1 none metaWitnessEntry [("y", JValue.int 1)],
   sample_collection_excludes_containers.2.1 none metaWitnessEntry
     (List.replicate 10 (JValue.int 1)) (by decide),
   sample_collection_excludes_containers.2.2.1 none metaWitnessEntry
     (JValue.int 1) [JValue.int 2] (by decide) (by decide),
   sample_collection_excludes_containers.2.2.2.1 unknownFieldLookup [dashKeyRecord]
     dashEntry
     (by rw [show buildRegistry unknownFieldLookup [dashKeyRecord] = [dashEntry] from rfl]
         exact List.mem_singleton_self _)
     (JValue.int 1) (List.mem_singleton_self _)⟩

/-- C5: analyze_records is a pure function of the batch and the lookup
collaborators, so running it twice on the same fixed, immutable record
batch yields identical reports (first conjunct); the discovered-field list
is ordered by the key `(-presence_pct, path)` of analyzer.py lines 303-306
(second conjunct: it is sorted for the realised comparison fieldLE) and is
exactly a reordering of the ranked final registry (third conjunct), whose
entries carry the contexts lists in their deterministic insertion order
(the Python context set is realised as an insertion-ordered duplicate-free
list, which is the ordered, deterministic list handed downstream). -/
theorem analyze_records_deterministic
    (lookup : String → Option String → FieldInfo)
    (catLookup : String → CategoryInfo)
    (mlPass : DataProfile → List JValue) (derivedFeatures : JValue)
    (records : List JValue) :
    analyze_records lookup catLookup mlPass derivedFeatures records =
      analyze_records lookup catLookup mlPass derivedFeatures records ∧
    List.Sorted fieldLE
      (analyze_records lookup catLookup mlPass derivedFeatures records).discovered_fields ∧
    (analyze_records lookup catLookup mlPass derivedFeatures
        records).discovered_fields.Perm
      ((buildRegistry lookup records).map (rankField records.length)) := by
  refine ⟨rfl, ?_, ?_⟩
  · by_cases hemp : records.isEmpty = true
    · simp only [analyze_records, if_pos hemp, emptyReport]
      exact List.sorted_nil
    · simp only [analyze_records, if_neg hemp, sortFields]
      exact List.sorted_insertionSort fieldLE _
  · by_cases hemp : records.isEmpty = true
    · have h0 : records = [] := List.isEmpty_iff.mp hemp
      subst h0
      simp only [analyze_records, if_pos hemp, emptyReport, buildRegistry,
        List.foldl_nil, List.map_nil]
      exact List.Perm.refl []
    · simp only [analyze_records, if_neg hemp, sortFields]
      exact List.perm_insertionSort fieldLE _

theorem get_nested_value_total_and_filtered_witness :
    get_nested_value_exc (JValue.obj []) "a.b" = .ok none ∧
    scalarStringOf (JValue.obj []) "a.b" = none :=
  ⟨get_nested_value_total_and_filtered.1 (JValue.obj []) "a.b",
   get_nested_value_total_and_filtered.2.2 (JValue.obj []) "a.b" rfl⟩

theorem getLastD_cons_eq (a d : Int) (t : List Int) :
    (a :: t).getLastD d = t.getLastD a := by
  cases t <;> rfl

theorem sorted_headD_le {l : List Int}
    (h : List.Sorted (fun a b : Int => a ≤ b) l) :
    ∀ x ∈ l, l.headD 0 ≤ x := by
  induction l with
  | nil => intro x hx; cases hx
  | cons a t ih =>
    intro x hx
    rcases List.mem_cons.mp hx with rfl | hx'
    · rw [List.headD_cons]
    · rw [List.headD_cons]
      exact (List.sorted_cons.mp h).1 x hx'

theorem sorted_le_getLastD {l : List Int}
    (h : List.Sorted (fun a b : Int => a ≤ b) l) :
    ∀ (d : Int), ∀ x ∈ l, x ≤ l.getLastD d := by
  induction l with
  | nil => intro d x hx; cases hx
  | cons a t ih =>
    intro d x hx
    obtain ⟨hhead, htail⟩ := List.sorted_cons.mp h
    rw [getLastD_cons_eq]
    rcases List.mem_cons.mp hx with rfl | hx'
    · cases t with
      | nil => exact le_refl _
      | cons b t2 =>
        exact le_trans (hhead b (List.mem_cons_self _ _))
          (ih htail x b (List.mem_cons_self _ _))
    · exact ih htail a x hx'

theorem headD_mem {l : List Int} (h : l ≠ []) : l.headD 0 ∈ l := by
  cases l with
  | nil => exact absurd rfl h
  | cons a t => rw [List.headD_cons]; exact List.mem_cons_self _ _

theorem getLastD_mem : ∀ (l : List Int), l ≠ [] → ∀ d : Int, l.getLastD d ∈ l := by
  intro l
  induction l with
  | nil => intro h; exact absurd rfl h
  | cons a t ih =>
    intro _ d
    rw [getLastD_cons_eq]
    cases t with
    | nil => exact List.mem_singleton_self _
    | cons b t2 =>
      exact List.mem_cons_of_mem _ (ih (List.cons_ne_nil b t2) a)

theorem buildTemporal_some {ts : List Int} {t : TemporalAnalysis}
    (h : buildTemporal ts = some t) :
    t.total_timestamps = ts.length ∧
    t.first_timestamp ∈ ts ∧
    t.last_timestamp ∈ ts ∧
    (∀ x ∈ ts, t.first_timestamp ≤ x ∧ x ≤ t.last_timestamp) ∧
    (ts.length < 2 →
      t.duration_ms = 0 ∧ t.avg_interval_ms = 0 ∧ t.duration_readable = "N/A") ∧
    (2 ≤ ts.length →
      t.duration_ms = t.last_timestamp - t.first_timestamp ∧
      t.avg_interval_ms = roundHalfEven
        (((t.last_timestamp - t.first_timestamp : Int) : ℚ) / (ts.length : ℚ)) ∧
      t.duration_readable = format_duration (t.last_timestamp - t.first_timestamp)) := by
  simp only [buildTemporal] at h
  by_cases hemp : ts.isEmpty = true
  · rw [if_pos hemp] at h; cases h
  · rw [if_neg hemp] at h
    have htne : ts ≠ [] := fun hts => hemp (by rw [hts]; rfl)
    have hperm : (ts.insertionSort (fun a b : Int => a ≤ b)).Perm ts :=
      List.perm_insertionSort _ _
    have hsorted : List.Sorted (fun a b : Int => a ≤ b)
        (ts.insertionSort (fun a b : Int => a ≤ b)) :=
      List.sorted_insertionSort _ _
    have hlen : (ts.insertionSort (fun a b : Int => a ≤ b)).length = ts.length :=
      hperm.length_eq
    have hne : ts.insertionSort (fun a b : Int => a ≤ b) ≠ [] := by
      intro hnil
      apply htne
      rw [hnil] at hlen
      exact List.length_eq_zero.mp hlen.symm
    obtain rfl := Option.some.inj h
    refine ⟨hlen, ?_, ?_, ?_, ?_, ?_⟩
    · exact hperm.subset (headD_mem hne)
    · exact hperm.subset (getLastD_mem _ hne 0)
    · intro x hx
      have hsx : x ∈ ts.insertionSort (fun a b : Int => a ≤ b) := hperm.mem_iff.mpr hx
      exact ⟨sorted_headD_le hsorted x hsx, sorted_le_getLastD hsorted 0 x hsx⟩
    · intro h2
      have hgt : ¬ (ts.insertionSort (fun a b : Int => a ≤ b)).length > 1 := by omega
      exact ⟨if_neg hgt, if_neg hgt, if_neg hgt⟩
    · intro h2
      have hgt : (ts.insertionSort (fun a b : Int => a ≤ b)).length > 1 := by omega
      refine ⟨if_pos hgt, ?_, if_pos hgt⟩
      refine (if_pos hgt).trans ?_
      rw [Rat.mkRat_eq_div, hlen]

theorem analyze_temporal_eq (lookup : String → Option String → FieldInfo)
    (catLookup : String → CategoryInfo)
    (mlPass : DataProfile → List JValue) (derivedFeatures : JValue)
    (records : List JValue) :
    (analyze_records lookup catLookup mlPass derivedFeatures records).temporal_analysis =
      buildTemporal (collectTimestamps records) := by
  by_cases hemp : records.isEmpty = true
  · have h0 : records = [] := List.isEmpty_iff.mp hemp
    subst h0
    rfl
  · simp only [analyze_records, if_neg hemp]

/-- C6 (corrected): phase 5 collects the publish time of exactly the records
whose top-level `pt` is truthy — the guard `if pt:` of analyzer.py line 419
drops a zero publish time as well as absent and null ones, so not every
record that has a pt scalar contributes (first conjunct characterises the
collected list).  With no timestamps the temporal section stays empty
(second conjunct).  Otherwise (third conjunct) the section reports the
number collected, first/last are the least and greatest of the collected
values, fewer than 2 timestamps report duration 0, average interval 0 and
"N/A" rather than dividing by zero, and at least 2 report
duration_ms = last - first, avg_interval_ms = round(duration / count)
under banker's rounding, and the rendered duration readout. -/
theorem temporal_analysis_guarded
    (lookup : String → Option String → FieldInfo)
    (catLookup : String → CategoryInfo)
    (mlPass : DataProfile → List JValue) (derivedFeatures : JValue)
    (records : List JValue) :
    collectTimestamps records = records.filterMap ptOf ∧
    (collectTimestamps records = [] →
      (analyze_records lookup catLookup mlPass derivedFeatures
        records).temporal_analysis = none) ∧
    (∀ t, (analyze_records lookup catLookup mlPass derivedFeatures
        records).temporal_analysis = some t →
      t.total_timestamps = (collectTimestamps records).length ∧
      t.first_timestamp ∈ collectTimestamps records ∧
      t.last_timestamp ∈ collectTimestamps records ∧
      (∀ x ∈ collectTimestamps records, t.first_timestamp ≤ x ∧ x ≤ t.last_timestamp) ∧
      ((collectTimestamps records).length < 2 →
        t.duration_ms = 0 ∧ t.avg_interval_ms = 0 ∧ t.duration_readable = "N/A") ∧
      (2 ≤ (collectTimestamps records).length →
        t.duration_ms = t.last_timestamp - t.first_timestamp ∧
        t.avg_interval_ms = roundHalfEven
          (((t.last_timestamp - t.first_timestamp : Int) : ℚ) /
            ((collectTimestamps records).length : ℚ)) ∧
        t.duration_readable = format_duration
          (t.last_timestamp - t.first_timestamp))) := by
  refine ⟨?_, ?_, ?_⟩
  · unfold collectTimestamps
    have hfun : (fun (ts : List Int) (r : JValue) =>
        match jGet r "pt" with
        | some (.int n) => if n ≠ 0 then ts ++ [n] else ts
        | _ => ts) = (fun (ts : List Int) (r : JValue) =>
        match ptOf r with
        | some v => ts ++ [v]
        | none => ts) := by
      funext ts r
      unfold ptOf
      cases ho : jGet r "pt" with
      | none => rfl
      | some v =>
        cases v with
        | int n =>
          by_cases hn : n = 0
          · simp [hn]
          · simp [hn]
        | null => rfl
        | bool b => rfl
        | str s => rfl
        | obj f => rfl
        | arr a => rfl
    rw [hfun]
    have h := (foldl_collect_filterMap ptOf records []).trans (List.nil_append _)
    convert h using 2
    funext vals r
    cases ptOf r <;> rfl
  · intro h0
    rw [analyze_temporal_eq lookup catLookup mlPass derivedFeatures records, h0]
    rfl
  · intro t ht
    rw [analyze_temporal_eq lookup catLookup mlPass derivedFeatures records] at ht
    exact buildTemporal_some ht

/-- C6 counterexample: both records of the batch carry a top-level
publish-time scalar (`{"pt": 0}` and `{"pt": 5}`), yet phase 5 collects
only one timestamp — the guard `if pt:` of analyzer.py line 419 drops the
falsy zero — so the temporal section reports total_timestamps 1 (with
duration 0 and average interval 0) instead of covering both records. -/
theorem temporal_analysis_guarded_counterexample :
    [zeroPtRecord, fivePtRecord].countP hasPtScalar = 2 ∧
    collectTimestamps [zeroPtRecord, fivePtRecord] = [5] ∧
    (analyzeWithFallbacks [zeroPtRecord, fivePtRecord]).temporal_analysis.map
      (fun t => (t.total_timestamps, t.duration_ms, t.avg_interval_ms)) =
      some (1, 0, 0) :=
  ⟨by decide, by decide, by decide⟩

theorem temporal_analysis_guarded_witness :
    (analyzeWithFallbacks [dashKeyRecord]).temporal_analysis = none ∧
    (∃ t, (analyzeWithFallbacks [fivePtRecord]).temporal_analysis = some t ∧
      t.duration_ms = 0 ∧ t.avg_interval_ms = 0 ∧ t.duration_readable = "N/A") ∧
    (∃ t, (analyzeWithFallbacks [fivePtRecord, twoPtRecord]).temporal_analysis = some t ∧
      t.duration_ms = t.last_timestamp - t.first_timestamp ∧
      t.avg_interval_ms = roundHalfEven
        (((t.last_timestamp - t.first_timestamp : Int) : ℚ) /
          ((collectTimestamps [fivePtRecord, twoPtRecord]).length : ℚ)) ∧
      t.duration_readable = format_duration
        (t.last_timestamp - t.first_timestamp)) := by
  refine ⟨?_, ?_, ?_⟩
  · exact (temporal_analysis_guarded unknownFieldLookup unknownCategoryLookup
      emptyMLPass .null [dashKeyRecord]).2.1 rfl
  · obtain ⟨t, ht⟩ : ∃ t,
        (analyzeWithFallbacks [fivePtRecord]).temporal_analysis = some t := ⟨_, rfl⟩
    refine ⟨t, ht, ?_⟩
    have h := (temporal_analysis_guarded unknownFieldLookup unknownCategoryLookup
      emptyMLPass .null [fivePtRecord]).2.2 t ht
    exact h.2.2.2.2.1 (by decide)
  · obtain ⟨t, ht⟩ : ∃ t,
        (analyzeWithFallbacks [fivePtRecord, twoPtRecord]).temporal_analysis = some t :=
      ⟨_, rfl⟩
    refine ⟨t, ht, ?_⟩
    have h := (temporal_analysis_guarded unknownFieldLookup unknownCategoryLookup
      emptyMLPass .null [fivePtRecord, twoPtRecord]).2.2 t ht
    exact h.2.2.2.2.2 (by decide)

theorem bumpEntry_count (ctx : Option String) (v : JValue) (e : FieldEntry) :
    (bumpEntry ctx v e).count = e.count + 1 := by
  cases ctx with
  | none =>
    simp only [bumpEntry]
    split <;> rfl
  | some c =>
    by_cases hc : c ∈ e.contexts
    · simp only [bumpEntry, if_pos hc]
      split <;> rfl
    · simp only [bumpEntry, if_neg hc]
      split <;> rfl

theorem registerObservation_find_none (reg : List FieldEntry)
    (fp key : String) (info : FieldInfo) (vt : String) (ctx : Option String) (v : JValue)
    (p : String) (hp : ¬ p = fp)
    (h : reg.find? (fun e => e.path = p) = none) :
    (registerObservation reg fp key info vt ctx v).find? (fun e => e.path = p) = none := by
  have hg : ∀ e : FieldEntry,
      ((fun e => if e.path = fp then bumpEntry ctx v e else e) e).path = e.path := by
    intro e
    by_cases hq : e.path = fp
    · simp [hq, bumpEntry_path]
    · simp [hq]
  unfold registerObservation
  by_cases hany : reg.any (fun e => e.path = fp) = true
  · rw [if_pos hany, find?_map_pathKeep hg, h]
    rfl
  · rw [if_neg hany, find?_map_pathKeep hg, List.find?_append, h]
    simp only [Option.none_or]
    have hfr : List.find? (fun e : FieldEntry => decide (e.path = p))
        [freshEntry fp key info vt] = none := by
      have hdp : decide (fp = p) = false := decide_eq_false (fun h' => hp h'.symm)
      simp [List.find?, freshEntry, hdp]
    rw [hfr]
    rfl

theorem registerObservation_countOf (reg : List FieldEntry)
    (fp key : String) (info : FieldInfo) (vt : String) (ctx : Option String) (v : JValue)
    (p : String) :
    countOf (registerObservation reg fp key info vt ctx v) p =
      countOf reg p + (if p = fp then 1 else 0) := by
  by_cases hp : p = fp
  · subst hp
    rw [if_pos rfl]
    cases hfind : reg.find? (fun e => e.path = p) with
    | none =>
      unfold countOf
      rw [registerObservation_find_absent reg p key info vt ctx v hfind, hfind]
      show (bumpEntry ctx v (freshEntry p key info vt)).count = 0 + 1
      rw [bumpEntry_count]
      rfl
    | some e =>
      have hep : e.path = p := by simpa using List.find?_some hfind
      unfold countOf
      rw [registerObservation_find_present reg p key info vt ctx v p e hfind,
        if_pos hep, hfind]
      show (bumpEntry ctx v e).count = e.count + 1
      exact bumpEntry_count ctx v e
  · rw [if_neg hp]
    cases hfind : reg.find? (fun e => e.path = p) with
    | some e =>
      have hep : e.path = p := by simpa using List.find?_some hfind
      have hefp : ¬ (e.path = fp) := by rw [hep]; exact hp
      unfold countOf
      rw [registerObservation_find_present reg fp key info vt ctx v p e hfind,
        if_neg hefp, hfind]
      rfl
    | none =>
      unfold countOf
      rw [registerObservation_find_none reg fp key info vt ctx v p hp hfind, hfind]

theorem regPathsV_obj_eq (fields : List (String × JValue)) (path : String)
    (depth maxDepth : Nat) :
    regPathsV (.obj fields) path depth maxDepth =
      if depth > maxDepth then []
      else regPathsF fields path depth maxDepth := rfl

theorem regPathsV_nonobj_eq (v : JValue) (path : String) (depth maxDepth : Nat)
    (hv : isObjB v = false) :
    regPathsV v path depth maxDepth = [] := by
  cases v with
  | obj fields => simp [isObjB] at hv
  | null => simp [regPathsV, ite_self]
  | bool b => simp [regPathsV, ite_self]
  | int n => simp [regPathsV, ite_self]
  | str s => simp [regPathsV, ite_self]
  | arr items => simp [regPathsV, ite_self]

theorem regPathsF_nil (path : String) (depth maxDepth : Nat) :
    regPathsF [] path depth maxDepth = [] := rfl

theorem regPathsF_cons (key : String) (value : JValue) (rest : List (String × JValue))
    (path : String) (depth maxDepth : Nat) :
    regPathsF ((key, value) :: rest) path depth maxDepth =
      joinPath path key ::
        ((match value with
          | JValue.obj f2 => regPathsV (.obj f2) (joinPath path key) (depth + 1) maxDepth
          | JValue.arr items => regPathsA items 0 (joinPath path key) (depth + 1) maxDepth
          | _ => []) ++ regPathsF rest path depth maxDepth) := by
  cases value <;> rfl

theorem regPathsA_nil (i : Nat) (fieldPath : String) (depth maxDepth : Nat) :
    regPathsA [] i fieldPath depth maxDepth = [] := rfl

theorem regPathsA_cons (item : JValue) (rest : List JValue) (i : Nat)
    (fieldPath : String) (depth maxDepth : Nat) :
    regPathsA (item :: rest) i fieldPath depth maxDepth =
      if i ≥ 3 then []
      else
        (match item with
         | JValue.obj f2 =>
           regPathsV (.obj f2) (fieldPath ++ "[" ++ toString i ++ "]") depth maxDepth
         | _ => []) ++ regPathsA rest (i + 1) fieldPath depth maxDepth := by
  cases item <;> rfl

mutual

theorem countOf_discover (lookup : String → Option String → FieldInfo)
    (v : JValue) (path : String) (reg : List FieldEntry)
    (depth maxDepth : Nat) (context : Option String) (p : String) :
    countOf (discover_fields_recursive lookup v path reg depth maxDepth context) p =
      countOf reg p + (regPathsV v path depth maxDepth).count p := by
  cases v with
  | obj fields =>
    rw [discover_obj_eq, regPathsV_obj_eq]
    by_cases hd : depth > maxDepth
    · rw [if_pos hd, if_pos hd]
      simp
    · rw [if_neg hd, if_neg hd]
      exact countOf_discoverObj lookup fields path reg depth maxDepth context p
  | null =>
    rw [discover_nonobj_eq lookup JValue.null path reg depth maxDepth context rfl,
      regPathsV_nonobj_eq JValue.null path depth maxDepth rfl]
    simp
  | bool b =>
    rw [discover_nonobj_eq lookup (JValue.bool b) path reg depth maxDepth context rfl,
      regPathsV_nonobj_eq (JValue.bool b) path depth maxDepth rfl]
    simp
  | int n =>
    rw [discover_nonobj_eq lookup (JValue.int n) path reg depth maxDepth context rfl,
      regPathsV_nonobj_eq (JValue.int n) path depth maxDepth rfl]
    simp
  | str s =>
    rw [discover_nonobj_eq lookup (JValue.str s) path reg depth maxDepth context rfl,
      regPathsV_nonobj_eq (JValue.str s) path depth maxDepth rfl]
    simp
  | arr items =>
    rw [discover_nonobj_eq lookup (JValue.arr items) path reg depth maxDepth context rfl,
      regPathsV_nonobj_eq (JValue.arr items) path depth maxDepth rfl]
    simp
termination_by sizeOf v

theorem countOf_discoverObj (lookup : String → Option String → FieldInfo)
    (fields : List (String × JValue)) (path : String) (reg : List FieldEntry)
    (depth maxDepth : Nat) (context : Option String) (p : String) :
    countOf (discoverObjFields lookup fields path reg depth maxDepth context) p =
      countOf reg p + (regPathsF fields path depth maxDepth).count p := by
  match fields with
  | [] =>
    rw [discoverObjFields_nil, regPathsF_nil]
    simp
  | (key, value) :: rest =>
    rw [discoverObjFields_cons, regPathsF_cons]
    rw [countOf_discoverObj lookup rest path _ depth maxDepth context p]
    cases value with
    | obj f2 =>
      rw [countOf_discover lookup (.obj f2) (joinPath path key) _
        (depth + 1) maxDepth (childContextFor key context) p,
        registerObservation_countOf]
      by_cases hp : p = joinPath path key
      · simp [hp, List.count_append, List.count_cons]
        omega
      · simp [hp, List.count_append, List.count_cons]
        omega
    | arr items =>
      rw [countOf_discoverArr lookup items 0 (joinPath path key) _
        (depth + 1) maxDepth (childContextFor key context) p,
        registerObservation_countOf]
      by_cases hp : p = joinPath path key
      · simp [hp, List.count_append, List.count_cons]
        omega
      · simp [hp, List.count_append, List.count_cons]
        omega
    | null =>
      rw [registerObservation_countOf]
      by_cases hp : p = joinPath path key
      · simp [hp, List.count_append, List.count_cons]
        omega
      · simp [hp, List.count_append, List.count_cons]
    | bool b =>
      rw [registerObservation_countOf]
      by_cases hp : p = joinPath path key
      · simp [hp, List.count_append, List.count_cons]
        omega
      · simp [hp, List.count_append, List.count_cons]
    | int n =>
      rw [registerObservation_countOf]
      by_cases hp : p = joinPath path key
      · simp [hp, List.count_append, List.count_cons]
        omega
      · simp [hp, List.count_append, List.count_cons]
    | str s =>
      rw [registerObservation_countOf]
      by_cases hp : p = joinPath path key
      · simp [hp, List.count_append, List.count_cons]
        omega
      · simp [hp, List.count_append, List.count_cons]
termination_by sizeOf fields

theorem countOf_discoverArr (lookup : String → Option String → FieldInfo)
    (items : List JValue) (i : Nat) (fieldPath : String) (reg : List FieldEntry)
    (depth maxDepth : Nat) (context : Option String) (p : String) :
    countOf (discoverArrItems lookup items i fieldPath reg depth maxDepth context) p =
      countOf reg p + (regPathsA items i fieldPath depth maxDepth).count p := by
  match items with
  | [] =>
    rw [discoverArrItems_nil, regPathsA_nil]
    simp
  | item :: rest =>
    rw [discoverArrItems_cons, regPathsA_cons]
    by_cases hi : i ≥ 3
    · rw [if_pos hi, if_pos hi]
      simp
    · rw [if_neg hi, if_neg hi]
      rw [countOf_discoverArr lookup rest (i + 1) fieldPath _ depth maxDepth context p]
      cases item with
      | obj f2 =>
        rw [countOf_discover lookup (.obj f2) (fieldPath ++ "[" ++ toString i ++ "]")
          reg depth maxDepth context p]
        simp [List.count_append]
        omega
      | null => simp [List.count_append]
      | bool b => simp [List.count_append]
      | int n => simp [List.count_append]
      | str s => simp [List.count_append]
      | arr xs => simp [List.count_append]
termination_by sizeOf items

end

theorem string_eq_of_data {s t : String} (h : s.data = t.data) : s = t := by
  cases s
  cases t
  exact congrArg String.mk h

theorem append_left_self_nil {l t : List Char} (h : l = l ++ t) : t = [] := by
  have := congrArg List.length h
  simp at this
  exact this

theorem joinPath_data (P k : String) :
    (joinPath P k).data =
      (if P = "" then [] else P.data ++ ['.']) ++ k.data := by
  unfold joinPath
  by_cases hP : P = ""
  · simp [hP]
  · simp [hP, String.data_append]

theorem cleanKeyB_spec {k : String} (h : cleanKeyB k = true) :
    k.data ≠ [] ∧ ∀ c ∈ k.data, ¬(c = '.') ∧ ¬(c = '[') := by
  unfold cleanKeyB at h
  simp only [Bool.and_eq_true, List.all_eq_true, Bool.not_eq_true'] at h
  obtain ⟨h1, h2⟩ := h
  constructor
  · intro h0
    rw [h0] at h1
    simp at h1
  · intro c hc
    have := h2 c hc
    simp only [Bool.and_eq_true, bne_iff_ne, ne_eq] at this
    exact ⟨this.1.1, this.1.2⟩

theorem key_block_disjoint_le {k k' t t' : List Char}
    (hlen : k.length ≤ k'.length)
    (hk' : ∀ c ∈ k', ¬(c = '.') ∧ ¬(c = '['))
    (hne : k ≠ k')
    (ht : t = [] ∨ SepTail t)
    (heq : k ++ t = k' ++ t') : False := by
  have hpre : k <+: k' := by
    have h1 : k <+: k' ++ t' := by
      rw [← heq]
      exact List.prefix_append k t
    exact List.prefix_of_prefix_length_le h1 (List.prefix_append k' t') hlen
  obtain ⟨w, hw⟩ := hpre
  cases w with
  | nil =>
    apply hne
    rw [← hw, List.append_nil]
  | cons c w2 =>
    have hteq : t = c :: (w2 ++ t') := by
      have h2 := heq
      rw [← hw, List.append_assoc] at h2
      exact List.append_cancel_left h2
    have hct : c = '.' ∨ c = '[' := by
      rcases ht with h0 | ⟨c2, u, hcu, hsep⟩
      · rw [h0] at hteq
        cases hteq
      · rw [hcu] at hteq
        injection hteq with h1 h2
        rw [← h1]
        exact hsep
    have hcmem : c ∈ k' := by
      rw [← hw]
      exact List.mem_append_right k (List.mem_cons_self c w2)
    rcases hct with h | h
    · exact (hk' c hcmem).1 h
    · exact (hk' c hcmem).2 h

theorem key_block_disjoint {k k' t t' : List Char}
    (hk : ∀ c ∈ k, ¬(c = '.') ∧ ¬(c = '['))
    (hk' : ∀ c ∈ k', ¬(c = '.') ∧ ¬(c = '['))
    (hne : k ≠ k')
    (ht : t = [] ∨ SepTail t)
    (ht' : t' = [] ∨ SepTail t')
    (heq : k ++ t = k' ++ t') : False := by
  rcases le_total k.length k'.length with h | h
  · exact key_block_disjoint_le h hk' hne ht heq
  · exact key_block_disjoint_le h hk (fun h2 => hne h2.symm) ht' heq.symm

theorem cleanFieldsB_cons {key : String} {value : JValue} {rest : List (String × JValue)}
    (h : cleanFieldsB ((key, value) :: rest) = true) :
    cleanKeyB key = true ∧ (rest.any (fun kv => kv.1 = key)) = false ∧
      cleanValueB value = true ∧ cleanFieldsB rest = true := by
  have h2 : (cleanKeyB key && !(rest.any (fun kv => kv.1 = key)) && cleanValueB value
      && cleanFieldsB rest) = true := h
  simp only [Bool.and_eq_true, Bool.not_eq_true'] at h2
  exact ⟨h2.1.1.1, h2.1.1.2, h2.1.2, h2.2⟩

theorem cleanItemsB_cons {item : JValue} {rest : List JValue}
    (h : cleanItemsB (item :: rest) = true) :
    cleanValueB item = true ∧ cleanItemsB rest = true := by
  have h2 : (cleanValueB item && cleanItemsB rest) = true := h
  simpa [Bool.and_eq_true] using h2

theorem joinPath_data_ne {P k : String} (hk : k.data ≠ []) :
    (joinPath P k).data ≠ [] := by
  rw [joinPath_data]
  intro h0
  exact hk (List.append_eq_nil.mp h0).2

theorem bracket_base_data (fp : String) (i : Nat) :
    (fp ++ "[" ++ toString i ++ "]").data =
      fp.data ++ ('[' :: ((toString i).data ++ [']'])) := by
  simp [String.data_append]

theorem bracket_base_data_ne (fp : String) (i : Nat) :
    (fp ++ "[" ++ toString i ++ "]").data ≠ [] := by
  rw [bracket_base_data]
  intro h0
  exact List.cons_ne_nil _ _ (List.append_eq_nil.mp h0).2

mutual

theorem regPathsV_attr (v : JValue) (B : String) (depth maxDepth : Nat)
    (hclean : cleanValueB v = true) (hB : B.data ≠ []) :
    ∀ s ∈ regPathsV v B depth maxDepth, ∃ t, s.data = B.data ++ t ∧ SepTail t := by
  cases v with
  | obj fields =>
    intro s hs
    rw [regPathsV_obj_eq] at hs
    by_cases hd : depth > maxDepth
    · rw [if_pos hd] at hs
      cases hs
    · rw [if_neg hd] at hs
      have hcf : cleanFieldsB fields = true := hclean
      obtain ⟨k, u, _, _, hdata, _⟩ :=
        regPathsF_attr fields B depth maxDepth hcf s hs
      refine ⟨'.' :: (k.data ++ u), ?_, ⟨'.', k.data ++ u, rfl, Or.inl rfl⟩⟩
      rw [hdata, joinPath_data]
      have hBne : ¬(B = "") := fun h0 => hB (by rw [h0])
      rw [if_neg hBne]
      simp [List.append_assoc]
  | null =>
    intro s hs
    rw [regPathsV_nonobj_eq JValue.null B depth maxDepth rfl] at hs
    cases hs
  | bool b =>
    intro s hs
    rw [regPathsV_nonobj_eq (JValue.bool b) B depth maxDepth rfl] at hs
    cases hs
  | int n =>
    intro s hs
    rw [regPathsV_nonobj_eq (JValue.int n) B depth maxDepth rfl] at hs
    cases hs
  | str s2 =>
    intro s hs
    rw [regPathsV_nonobj_eq (JValue.str s2) B depth maxDepth rfl] at hs
    cases hs
  | arr items =>
    intro s hs
    rw [regPathsV_nonobj_eq (JValue.arr items) B depth maxDepth rfl] at hs
    cases hs
termination_by sizeOf v

theorem regPathsF_attr (fields : List (String × JValue)) (P : String)
    (depth maxDepth : Nat) (hclean : cleanFieldsB fields = true) :
    ∀ s ∈ regPathsF fields P depth maxDepth,
      ∃ k u, (∃ v', (k, v') ∈ fields) ∧ cleanKeyB k = true ∧
        s.data = (joinPath P k).data ++ u ∧ (u = [] ∨ SepTail u) := by
  match fields with
  | [] =>
    intro s hs
    rw [regPathsF_nil] at hs
    cases hs
  | (key, value) :: rest =>
    intro s hs
    rw [regPathsF_cons] at hs
    obtain ⟨hkey, hdup, hval, hrest⟩ := cleanFieldsB_cons hclean
    rcases List.mem_cons.mp hs with rfl | hs2
    · exact ⟨key, [], ⟨value, List.mem_cons_self _ _⟩, hkey, by simp, Or.inl rfl⟩
    · rcases List.mem_append.mp hs2 with hsub | hrestmem
      · cases value with
        | obj f2 =>
          obtain ⟨t, hdata, hsep⟩ := regPathsV_attr (.obj f2) (joinPath P key)
            (depth + 1) maxDepth hval (joinPath_data_ne (cleanKeyB_spec hkey).1) s hsub
          exact ⟨key, t, ⟨.obj f2, List.mem_cons_self _ _⟩, hkey, hdata, Or.inr hsep⟩
        | arr items =>
          have hvi : cleanItemsB items = true := hval
          obtain ⟨j, t, _, _, hdata, _⟩ := regPathsA_attr items 0 (joinPath P key)
            (depth + 1) maxDepth hvi s hsub
          exact ⟨key, '[' :: ((toString j).data ++ (']' :: t)),
            ⟨.arr items, List.mem_cons_self _ _⟩, hkey, hdata,
            Or.inr ⟨'[', _, rfl, Or.inr rfl⟩⟩
        | null => cases hsub
        | bool b => cases hsub
        | int n => cases hsub
        | str s2 => cases hsub
      · obtain ⟨k, u, ⟨v', hv'⟩, hk, hdata, hu⟩ :=
          regPathsF_attr rest P depth maxDepth hrest s hrestmem
        exact ⟨k, u, ⟨v', List.mem_cons_of_mem _ hv'⟩, hk, hdata, hu⟩
termination_by sizeOf fields

theorem regPathsA_attr (items : List JValue) (i : Nat) (fp : String)
    (depth maxDepth : Nat) (hclean : cleanItemsB items = true) :
    ∀ s ∈ regPathsA items i fp depth maxDepth,
      ∃ j t, i ≤ j ∧ j < 3 ∧
        s.data = fp.data ++ ('[' :: ((toString j).data ++ (']' :: t))) ∧ SepTail t := by
  match items with
  | [] =>
    intro s hs
    rw [regPathsA_nil] at hs
    cases hs
  | item :: rest =>
    intro s hs
    rw [regPathsA_cons] at hs
    obtain ⟨hitem, hrest⟩ := cleanItemsB_cons hclean
    by_cases hi : i ≥ 3
    · rw [if_pos hi] at hs
      cases hs
    · rw [if_neg hi] at hs
      rcases List.mem_append.mp hs with hsub | hrestmem
      · cases item with
        | obj f2 =>
          obtain ⟨t, hdata, hsep⟩ := regPathsV_attr (.obj f2)
            (fp ++ "[" ++ toString i ++ "]") depth maxDepth hitem
            (bracket_base_data_ne fp i) s hsub
          refine ⟨i, t, le_refl i, by omega, ?_, hsep⟩
          rw [hdata, bracket_base_data]
          simp [List.append_assoc]
        | null => cases hsub
        | bool b => cases hsub
        | int n => cases hsub
        | str s2 => cases hsub
        | arr xs => cases hsub
      · obtain ⟨j, t, hij, hj3, hdata, hsep⟩ :=
          regPathsA_attr rest (i + 1) fp depth maxDepth hrest s hrestmem
        exact ⟨j, t, by omega, hj3, hdata, hsep⟩
termination_by sizeOf items

end

theorem digit_tail_ne {i j : Nat} (hi : i < 3) (hj : j < 3) (hij : i ≠ j)
    {t u : List Char}
    (h : (toString i).data ++ (']' :: t) = (toString j).data ++ (']' :: u)) :
    False := by
  interval_cases i <;> interval_cases j <;>
    first
      | omega
      | (simp only [show (toString (0 : Nat)).data = ['0'] from by decide,
          show (toString (1 : Nat)).data = ['1'] from by decide,
          show (toString (2 : Nat)).data = ['2'] from by decide,
          List.cons_append, List.nil_append] at h
         exact absurd h (by simp))

mutual

theorem regPathsV_nodup (v : JValue) (B : String) (depth maxDepth : Nat)
    (hclean : cleanValueB v = true) :
    (regPathsV v B depth maxDepth).Nodup := by
  cases v with
  | obj fields =>
    rw [regPathsV_obj_eq]
    by_cases hd : depth > maxDepth
    · rw [if_pos hd]
      exact List.nodup_nil
    · rw [if_neg hd]
      exact regPathsF_nodup fields B depth maxDepth hclean
  | null =>
    rw [regPathsV_nonobj_eq JValue.null B depth maxDepth rfl]
    exact List.nodup_nil
  | bool b =>
    rw [regPathsV_nonobj_eq (JValue.bool b) B depth maxDepth rfl]
    exact List.nodup_nil
  | int n =>
    rw [regPathsV_nonobj_eq (JValue.int n) B depth maxDepth rfl]
    exact List.nodup_nil
  | str s2 =>
    rw [regPathsV_nonobj_eq (JValue.str s2) B depth maxDepth rfl]
    exact List.nodup_nil
  | arr items =>
    rw [regPathsV_nonobj_eq (JValue.arr items) B depth maxDepth rfl]
    exact List.nodup_nil
termination_by sizeOf v

theorem regPathsF_nodup (fields : List (String × JValue)) (P : String)
    (depth maxDepth : Nat) (hclean : cleanFieldsB fields = true) :
    (regPathsF fields P depth maxDepth).Nodup := by
  match fields with
  | [] =>
    rw [regPathsF_nil]
    exact List.nodup_nil
  | (key, value) :: rest =>
    rw [regPathsF_cons]
    obtain ⟨hkey, hdup, hval, hrest⟩ := cleanFieldsB_cons hclean
    have hkspec := cleanKeyB_spec hkey
    have hkeyblock : ∀ (s : String), (∃ t2, s.data = (joinPath P key).data ++ t2 ∧
        (t2 = [] ∨ SepTail t2)) →
        s ∈ regPathsF rest P depth maxDepth → False := by
      rintro s ⟨t2, hs2, ht2⟩ hmem
      obtain ⟨k', u', ⟨v', hv'⟩, hk', hdata, hu'⟩ :=
        regPathsF_attr rest P depth maxDepth hrest s hmem
      have h1 : (joinPath P key).data ++ t2 = (joinPath P k').data ++ u' := by
        rw [← hs2, hdata]
      rw [joinPath_data, joinPath_data, List.append_assoc, List.append_assoc] at h1
      have h2 : key.data ++ t2 = k'.data ++ u' := List.append_cancel_left h1
      have hneq : key.data ≠ k'.data := by
        intro hd2
        have hkk : key = k' := string_eq_of_data hd2
        have hany : rest.any (fun kv => kv.1 = key) = true :=
          List.any_eq_true.mpr ⟨(k', v'), hv', by simp [hkk]⟩
        rw [hdup] at hany
        cases hany
      exact key_block_disjoint hkspec.2 (cleanKeyB_spec hk').2 hneq ht2 hu' h2
    rw [List.nodup_cons]
    constructor
    · intro hmem
      rcases List.mem_append.mp hmem with hsub | hrestmem
      · cases value with
        | obj f2 =>
          obtain ⟨t, hdata, ⟨c, u, hcu, _⟩⟩ := regPathsV_attr (.obj f2) (joinPath P key)
            (depth + 1) maxDepth hval (joinPath_data_ne hkspec.1) _ hsub
          have h0 := append_left_self_nil hdata
          rw [hcu] at h0
          cases h0
        | arr items =>
          have hvi : cleanItemsB items = true := hval
          obtain ⟨j, t, _, _, hdata, _⟩ := regPathsA_attr items 0 (joinPath P key)
            (depth + 1) maxDepth hvi _ hsub
          have h0 := append_left_self_nil hdata
          cases h0
        | null => cases hsub
        | bool b => cases hsub
        | int n => cases hsub
        | str s2 => cases hsub
      · exact hkeyblock (joinPath P key) ⟨[], by simp, Or.inl rfl⟩ hrestmem
    · rw [List.nodup_append]
      refine ⟨?_, regPathsF_nodup rest P depth maxDepth hrest, ?_⟩
      · cases value with
        | obj f2 =>
          exact regPathsV_nodup (.obj f2) (joinPath P key) (depth + 1) maxDepth hval
        | arr items =>
          exact regPathsA_nodup items 0 (joinPath P key) (depth + 1) maxDepth hval
        | null => exact List.nodup_nil
        | bool b => exact List.nodup_nil
        | int n => exact List.nodup_nil
        | str s2 => exact List.nodup_nil
      · intro s hs1 hs2
        cases value with
        | obj f2 =>
          obtain ⟨t, hdata, hsep⟩ := regPathsV_attr (.obj f2) (joinPath P key)
            (depth + 1) maxDepth hval (joinPath_data_ne hkspec.1) s hs1
          exact hkeyblock s ⟨t, hdata, Or.inr hsep⟩ hs2
        | arr items =>
          have hvi : cleanItemsB items = true := hval
          obtain ⟨j, t, _, _, hdata, _⟩ := regPathsA_attr items 0 (joinPath P key)
            (depth + 1) maxDepth hvi s hs1
          exact hkeyblock s ⟨'[' :: ((toString j).data ++ (']' :: t)), hdata,
            Or.inr ⟨'[', _, rfl, Or.inr rfl⟩⟩ hs2
        | null => cases hs1
        | bool b => cases hs1
        | int n => cases hs1
        | str s2 => cases hs1
termination_by sizeOf fields

theorem regPathsA_nodup (items : List JValue) (i : Nat) (fp : String)
    (depth maxDepth : Nat) (hclean : cleanItemsB items = true) :
    (regPathsA items i fp depth maxDepth).Nodup := by
  match items with
  | [] =>
    rw [regPathsA_nil]
    exact List.nodup_nil
  | item :: rest =>
    rw [regPathsA_cons]
    obtain ⟨hitem, hrest⟩ := cleanItemsB_cons hclean
    by_cases hi : i ≥ 3
    · rw [if_pos hi]
      exact List.nodup_nil
    · rw [if_neg hi]
      rw [List.nodup_append]
      refine ⟨?_, regPathsA_nodup rest (i + 1) fp depth maxDepth hrest, ?_⟩
      · cases item with
        | obj f2 =>
          exact regPathsV_nodup (.obj f2) (fp ++ "[" ++ toString i ++ "]")
            depth maxDepth hitem
        | null => exact List.nodup_nil
        | bool b => exact List.nodup_nil
        | int n => exact List.nodup_nil
        | str s2 => exact List.nodup_nil
        | arr xs => exact List.nodup_nil
      · intro s hs1 hs2
        cases item with
        | obj f2 =>
          obtain ⟨t, hdata, hsep⟩ := regPathsV_attr (.obj f2)
            (fp ++ "[" ++ toString i ++ "]") depth maxDepth hitem
            (bracket_base_data_ne fp i) s hs1
          obtain ⟨j, u, hij, hj3, hdata2, _⟩ :=
            regPathsA_attr rest (i + 1) fp depth maxDepth hrest s hs2
          rw [bracket_base_data] at hdata
          simp only [List.append_assoc, List.cons_append, List.singleton_append] at hdata
          have h1 := hdata.symm.trans hdata2
          have h2 := List.append_cancel_left h1
          injection h2 with _ h3
          exact digit_tail_ne (by omega) hj3 (by omega) h3
        | null => cases hs1
        | bool b => cases hs1
        | int n => cases hs1
        | str s2 => cases hs1
        | arr xs => cases hs1
termination_by sizeOf items

end

theorem countOf_walk_le (lookup : String → Option String → FieldInfo)
    (r : JValue) (reg : List FieldEntry) (p : String)
    (hclean : cleanValueB r = true) :
    countOf (discover_fields_recursive lookup r "" reg 0 10 none) p ≤
      countOf reg p + 1 := by
  rw [countOf_discover]
  have hnd : (regPathsV r "" 0 10).Nodup := regPathsV_nodup r "" 0 10 hclean
  have hcnt : (regPathsV r "" 0 10).count p ≤ 1 :=
    List.nodup_iff_count_le_one.mp hnd p
  omega

theorem countOf_foldl_le (lookup : String → Option String → FieldInfo) (p : String) :
    ∀ (records : List JValue), (∀ r ∈ records, cleanValueB r = true) →
    ∀ (reg : List FieldEntry),
      countOf (records.foldl (fun acc r =>
        discover_fields_recursive lookup r "" acc 0 10 none) reg) p ≤
        countOf reg p + records.length := by
  intro records
  induction records with
  | nil =>
    intro _ reg
    simp
  | cons r rs ih =>
    intro hclean reg
    rw [List.foldl_cons]
    have h1 := ih (fun x hx => hclean x (List.mem_cons_of_mem _ hx))
      (discover_fields_recursive lookup r "" reg 0 10 none)
    have h2 := countOf_walk_le lookup r reg p (hclean r (List.mem_cons_self _ _))
    simp only [List.length_cons]
    omega

theorem countOf_buildRegistry_le (lookup : String → Option String → FieldInfo)
    (records : List JValue) (p : String)
    (hclean : ∀ r ∈ records, cleanValueB r = true) :
    countOf (buildRegistry lookup records) p ≤ records.length := by
  have h := countOf_foldl_le lookup p records hclean []
  have h0 : countOf [] p = 0 := rfl
  unfold buildRegistry
  omega

theorem registerObservation_pathsNodup (reg : List FieldEntry)
    (fp key : String) (info : FieldInfo) (vt : String) (ctx : Option String) (v : JValue)
    (h : (reg.map (fun e => e.path)).Nodup) :
    ((registerObservation reg fp key info vt ctx v).map (fun e => e.path)).Nodup := by
  have hfun : ((fun e : FieldEntry => e.path) ∘
      (fun e => if e.path = fp then bumpEntry ctx v e else e)) =
      (fun e : FieldEntry => e.path) := by
    funext e
    by_cases hq : e.path = fp
    · simp [Function.comp, hq, bumpEntry_path]
    · simp [Function.comp, hq]
  unfold registerObservation
  by_cases hany : reg.any (fun e => e.path = fp) = true
  · rw [if_pos hany, List.map_map, hfun]
    exact h
  · rw [if_neg hany, List.map_map, hfun, List.map_append]
    rw [List.nodup_append]
    refine ⟨h, by simp [freshEntry], ?_⟩
    intro s hs1 hs2
    simp only [List.map_cons, List.map_nil, List.mem_singleton, freshEntry] at hs2
    obtain ⟨e, he, hep⟩ := List.mem_map.mp hs1
    apply hany
    rw [List.any_eq_true]
    refine ⟨e, he, ?_⟩
    simp [hep, hs2]

theorem buildRegistry_pathsNodup (lookup : String → Option String → FieldInfo)
    (records : List JValue) :
    ((buildRegistry lookup records).map (fun e => e.path)).Nodup := by
  refine @regReach_preserve (fun reg => (reg.map (fun e => e.path)).Nodup) ?_ []
    (buildRegistry lookup records) (regReach_buildRegistry lookup records) (by simp)
  intro reg fp key info vt ctx v hP
  exact registerObservation_pathsNodup reg fp key info vt ctx v hP

theorem mem_count_eq_countOf {reg : List FieldEntry}
    (hnd : (reg.map (fun e => e.path)).Nodup) {e : FieldEntry} (he : e ∈ reg) :
    countOf reg e.path = e.count := by
  induction reg with
  | nil => cases he
  | cons a rest ih =>
    have hnd2 : (∀ x ∈ rest, ¬x.path = a.path) ∧
        (List.map (fun e => e.path) rest).Nodup := by simpa using hnd
    rcases List.mem_cons.mp he with rfl | he2
    · unfold countOf
      rw [List.find?_cons_of_pos _ (by simp)]
    · by_cases hap : a.path = e.path
      · exact absurd hap.symm (hnd2.1 e he2)
      · unfold countOf
        rw [List.find?_cons_of_neg _ (by simp [hap])]
        exact ih hnd2.2 he2

/-- C3 (corrected): the walker keys the registry by path string, not by
structural position, so an object key that itself contains a path
metacharacter can collide with a nested path and bump the same entry twice
within one record.  Under clean records — every mapping key non-empty,
duplicate-free and free of the separators `.`, `[`, `]` — path strings
identify positions uniquely and the spec's bound holds: one record's walk
increments any path's count by at most 1 (first conjunct), so after
walking the batch every path's count is at most the number of records
(second conjunct) and every registry entry's count is at most the number
of records (third conjunct). -/
theorem path_count_per_record (lookup : String → Option String → FieldInfo)
    (records : List JValue) (p : String) (reg : List FieldEntry) (r : JValue)
    (hcr : cleanValueB r = true)
    (hclean : ∀ r' ∈ records, cleanValueB r' = true) :
    countOf (discover_fields_recursive lookup r "" reg 0 10 none) p ≤
      countOf reg p + 1 ∧
    countOf (buildRegistry lookup records) p ≤ records.length ∧
    ∀ e ∈ buildRegistry lookup records, e.count ≤ records.length := by
  refine ⟨countOf_walk_le lookup r reg p hcr,
    countOf_buildRegistry_le lookup records p hclean, ?_⟩
  intro e he
  rw [← mem_count_eq_countOf (buildRegistry_pathsNodup lookup records) he]
  exact countOf_buildRegistry_le lookup records e.path hclean

/-- C3 counterexample: in `{"a": {"b": 1}, "a.b": 2}` the nested key `b`
and the literal top-level key `"a.b"` both register the path string
`"a.b"`, so one record's walk increments that entry's count twice: the
final count is 2 although the batch holds a single record. -/
theorem path_count_per_record_counterexample :
    countOf (buildRegistry unknownFieldLookup [collidingRecord]) "a.b" = 2 ∧
    [collidingRecord].length = 1 :=
  ⟨by decide, rfl⟩

theorem path_count_per_record_witness :
    (countOf (discover_fields_recursive unknownFieldLookup dashKeyRecord ""
        [] 0 10 none) "a-b" ≤ countOf ([] : List FieldEntry) "a-b" + 1 ∧
      countOf (buildRegistry unknownFieldLookup [dashKeyRecord]) "a-b" ≤
        [dashKeyRecord].length ∧
      ∀ e ∈ buildRegistry unknownFieldLookup [dashKeyRecord],
        e.count ≤ [dashKeyRecord].length) :=
  path_count_per_record unknownFieldLookup [dashKeyRecord] "a-b" [] dashKeyRecord
    (by decide)
    (by
      intro r' hr'
      rcases List.mem_singleton.mp hr' with rfl
      decide)

theorem rat_floor_eq (q : ℚ) : q.floor = ⌊q⌋ := by
  rw [Rat.floor_def', Rat.floor_def]

theorem roundHalfEven_mem (q : ℚ) :
    roundHalfEven q = q.floor ∨ roundHalfEven q = q.floor + 1 := by
  simp only [roundHalfEven]
  split_ifs <;> simp

theorem roundHalfEven_intCast (N : ℤ) : roundHalfEven ((N : ℤ) : ℚ) = N := by
  simp only [roundHalfEven]
  rw [rat_floor_eq, Int.floor_intCast, Rat.num_intCast, Rat.den_intCast]
  norm_num

theorem roundHalfEven_nonneg {q : ℚ} (h : 0 ≤ q) : 0 ≤ roundHalfEven q := by
  rcases roundHalfEven_mem q with h1 | h1
  · rw [h1, rat_floor_eq]
    exact Int.floor_nonneg.mpr h
  · rw [h1, rat_floor_eq]
    have := Int.floor_nonneg.mpr h
    omega

theorem roundHalfEven_le_of_le {q : ℚ} {N : ℤ} (h : q ≤ (N : ℚ)) :
    roundHalfEven q ≤ N := by
  rcases eq_or_lt_of_le h with heq | hlt
  · rw [heq, roundHalfEven_intCast]
  · have h1 : (⌊q⌋ : ℚ) ≤ q := Int.floor_le q
    have h2 : (⌊q⌋ : ℚ) < (N : ℚ) := lt_of_le_of_lt h1 hlt
    have h3 : ⌊q⌋ < N := by exact_mod_cast h2
    rcases roundHalfEven_mem q with h4 | h4
    · rw [h4, rat_floor_eq]
      omega
    · rw [h4, rat_floor_eq]
      omega

theorem mkRat_num_mul100 (q : ℚ) : mkRat (q.num * 100) q.den = q * 100 := by
  rw [Rat.mkRat_eq_div]
  conv_rhs => rw [← Rat.num_div_den q]
  rw [div_mul_eq_mul_div]
  push_cast
  ring_nf

theorem roundTo2_nonneg {q : ℚ} (h : 0 ≤ q) : 0 ≤ roundTo2 q := by
  unfold roundTo2
  rw [Rat.mkRat_eq_div]
  apply div_nonneg _ (by norm_num : (0 : ℚ) ≤ 100)
  have hX : (0 : ℚ) ≤ mkRat (q.num * 100) q.den := by
    rw [mkRat_num_mul100]
    exact mul_nonneg h (by norm_num)
  exact_mod_cast roundHalfEven_nonneg hX

theorem roundTo2_le_100 {q : ℚ} (h : q ≤ 100) : roundTo2 q ≤ 100 := by
  unfold roundTo2
  rw [Rat.mkRat_eq_div]
  rw [show ((100 : ℕ) : ℚ) = 100 from by norm_num,
    div_le_iff₀ (by norm_num : (0 : ℚ) < 100)]
  have hX : mkRat (q.num * 100) q.den ≤ ((10000 : ℤ) : ℚ) := by
    rw [mkRat_num_mul100]
    push_cast
    linarith
  have h2 : ((roundHalfEven (mkRat (q.num * 100) q.den) : ℤ) : ℚ) ≤
      ((10000 : ℤ) : ℚ) := by
    exact_mod_cast roundHalfEven_le_of_le hX
  push_cast at h2 ⊢
  linarith

theorem roundTo2_100 : roundTo2 100 = 100 := by decide

/-- C2 (corrected): for every batch, every discovered field's presence_pct
equals round(count / totalRecords * 100, 2) computed by banker's rounding
on the exact quotient (first conjunct, unconditional).  The range part of
the claim relies on count ≤ totalRecords, which path collisions violate
(see the counterexample); under clean records — every mapping key
non-empty, duplicate-free and free of `.`, `[`, `]` — count ≤ totalRecords
holds, presence_pct lies in [0, 100], and an entry observed in every
record has presence_pct exactly 100. -/
theorem presence_pct_bounds (lookup : String → Option String → FieldInfo)
    (catLookup : String → CategoryInfo)
    (mlPass : DataProfile → List JValue) (derivedFeatures : JValue)
    (records : List JValue)
    (hclean : ∀ r ∈ records, cleanValueB r = true) :
    ∀ f ∈ (analyze_records lookup catLookup mlPass derivedFeatures
        records).discovered_fields,
      f.presence_pct = roundTo2 (mkRat ((f.count : ℤ) * 100) records.length) ∧
      0 ≤ f.presence_pct ∧ f.presence_pct ≤ 100 ∧
      (f.count = records.length → f.presence_pct = 100) := by
  intro f hf
  by_cases hemp : records.isEmpty = true
  · have h0 : records = [] := List.isEmpty_iff.mp hemp
    subst h0
    have hd : (analyze_records lookup catLookup mlPass derivedFeatures
        []).discovered_fields = [] := rfl
    rw [hd] at hf
    cases hf
  · simp only [analyze_records, if_neg hemp, sortFields] at hf
    have hf2 : f ∈ (buildRegistry lookup records).map (rankField records.length) :=
      (List.perm_insertionSort fieldLE _).mem_iff.mp hf
    obtain ⟨e, he, hfe⟩ := List.mem_map.mp hf2
    subst hfe
    have hcount : e.count ≤ records.length := by
      rw [← mem_count_eq_countOf (buildRegistry_pathsNodup lookup records) he]
      exact countOf_buildRegistry_le lookup records e.path hclean
    have htpos : 0 < records.length := by
      cases records with
      | nil => simp at hemp
      | cons a l => simp
    have hq0 : (0 : ℚ) ≤ mkRat ((e.count : ℤ) * 100) records.length := by
      rw [Rat.mkRat_eq_div]
      apply div_nonneg
      · push_cast
        positivity
      · positivity
    have hq100 : mkRat ((e.count : ℤ) * 100) records.length ≤ 100 := by
      rw [Rat.mkRat_eq_div]
      rw [div_le_iff₀ (by exact_mod_cast htpos : (0 : ℚ) < (records.length : ℚ))]
      push_cast
      have hc : (e.count : ℚ) ≤ (records.length : ℚ) := by exact_mod_cast hcount
      linarith
    refine ⟨rfl, ?_, ?_, ?_⟩
    · exact roundTo2_nonneg hq0
    · exact roundTo2_le_100 hq100
    · intro hceq
      have hceq2 : e.count = records.length := hceq
      show roundTo2 (mkRat ((e.count : ℤ) * 100) records.length) = 100
      rw [hceq2]
      have hden : mkRat ((records.length : ℤ) * 100) records.length = 100 := by
        rw [Rat.mkRat_eq_div]
        push_cast
        rw [mul_comm, mul_div_assoc,
          div_self (by exact_mod_cast htpos.ne' : ((records.length : ℚ)) ≠ 0), mul_one]
      rw [hden, roundTo2_100]

/-- C2 counterexample: walking the single record
`{"a": {"b": 1}, "a.b": 2}` gives the entry at path "a.b" count 2 with one
record, so its presence_pct is round(2 / 1 * 100, 2) = 200, outside the
spec's claimed range [0, 100]. -/
theorem presence_pct_bounds_counterexample :
    (analyzeWithFallbacks [collidingRecord]).discovered_fields.map
      (fun f => (f.path, f.count, f.presence_pct)) =
      [("a.b", 2, 200), ("a", 1, 100)] ∧
    ¬((200 : ℚ) ≤ 100) :=
  ⟨by decide, by decide⟩

theorem presence_pct_bounds_witness :
    rankField 1 dashEntry ∈ (analyzeWithFallbacks [dashKeyRecord]).discovered_fields ∧
    ((rankField 1 dashEntry).presence_pct =
        roundTo2 (mkRat (((rankField 1 dashEntry).count : ℤ) * 100) 1) ∧
      0 ≤ (rankField 1 dashEntry).presence_pct ∧
      (rankField 1 dashEntry).presence_pct ≤ 100 ∧
      (rankField 1 dashEntry).presence_pct = 100) := by
  have hmem : rankField 1 dashEntry ∈
      (analyzeWithFallbacks [dashKeyRecord]).discovered_fields := by
    rw [show (analyzeWithFallbacks [dashKeyRecord]).discovered_fields =
      [rankField 1 dashEntry] from rfl]
    exact List.mem_singleton_self _
  have h := presence_pct_bounds unknownFieldLookup unknownCategoryLookup emptyMLPass
    JValue.null [dashKeyRecord]
    (by
      intro r hr
      rcases List.mem_singleton.mp hr with rfl
      decide)
    (rankField 1 dashEntry) hmem
  exact ⟨hmem, h.1, h.2.1, h.2.2.1, h.2.2.2 (by decide)⟩
